import Mathlib

/-!
Verification of the Doris vectorized sort operator
(`be/src/vec/common/sort/sorter.cpp`).

The embedding models a block as a list of rows, a row as a list of cells
(`Option Int`: `none` is SQL NULL), and follows the source functions
`MergeSorterState::build_merge_tree`, `MergeSorterState::merge_sort_read`,
`Sorter::partial_sort`, `FullSorter::append_block`,
`FullSorter::prepare_for_read`, `FullSorter::get_next` and
`FullSorter::_do_sort`.  External collaborators (Block operations,
expression contexts) and repository code outside this slice
(`sort_block`, `MergeSortBlockCursor`, the flush trigger `_reach_limit`)
are modelled from the spec's interface contracts, as noted at each
definition.
-/

namespace DorisSort

/-- A cell of a column: `none` models SQL NULL. -/
abbrev Cell := Option Int

/-- A row of a block, as the list of its cells (one per column). -/
abbrev Row := List Cell

/-- A block: an ordered sequence of rows (the row-view of the columnar batch). -/
abbrev Block := List Row

/-- One entry of a sort description, mirroring `SortColumnDescription`:
a column index, a direction (`1` ascending, `-1` descending) and a
nulls direction (`-direction` for nulls-first, `direction` otherwise). -/
structure SortColumnDescription where
  column_number : Nat
  direction : Int
  nulls_direction : Int
deriving Repr, DecidableEq

/-- `SortDescription`, as in the source: a list of column descriptions. -/
abbrev SortDescription := List SortColumnDescription

/-- Cell of a row at a column index (out-of-range reads yield NULL; in the
C++ the index is always in range). -/
def cellAt (r : Row) (i : Nat) : Cell := r.getD i none

/-- Three-way comparison of two cells with a nulls-direction hint, as
`IColumn::compare_at` does for nullable columns: NULL equals NULL, NULL
against a value is placed by the hint, values compare as integers. -/
def compareCell (nulls_direction : Int) : Cell → Cell → Int
  | none, none => 0
  | none, some _ => nulls_direction
  | some _, none => -nulls_direction
  | some a, some b => if a < b then -1 else if a = b then 0 else 1

/-- Three-way comparison of two rows on one sort column:
`direction * compare_at(...)` as in the cursor comparators. -/
def compareRowAt (d : SortColumnDescription) (a b : Row) : Int :=
  d.direction * compareCell d.nulls_direction (cellAt a d.column_number) (cellAt b d.column_number)

/-- Lexicographic three-way comparison of two rows under a sort
description, as the merge cursors compare current rows. -/
def compareRow : SortDescription → Row → Row → Int
  | [], _, _ => 0
  | d :: rest, a, b =>
    let c := compareRowAt d a b
    if c = 0 then compareRow rest a b else c

/-- The non-strict row order induced by a sort description. -/
def rowLE (desc : SortDescription) (a b : Row) : Prop := compareRow desc a b ≤ 0

instance (desc : SortDescription) : DecidableRel (rowLE desc) :=
  fun _a _b => Int.decLe _ _

/-- A sort description is valid when every direction and nulls-direction
is `±1`; `partial_sort` only ever builds such descriptions. -/
def ValidDesc (desc : SortDescription) : Prop :=
  ∀ d ∈ desc, (d.direction = 1 ∨ d.direction = -1) ∧
    (d.nulls_direction = 1 ∨ d.nulls_direction = -1)

/-! ### Statuses and expression outcomes -/

/-- A `doris::Status`: success or a propagated failure. -/
inductive Status where
  | ok : Status
  | error : Status
deriving Repr, DecidableEq

/-- Outcome of `VExprContext::execute(&block, &column_id)` for one
expression context: a resolved column index, or a failed status.  The
expression contexts are external collaborators; the core consumes only the
resulting column indices (spec §1, §6). -/
inductive ExprOutcome where
  | ok (column_id : Nat)
  | fail
deriving Repr, DecidableEq

/-- Run a list of expression outcomes with `RETURN_IF_ERROR` semantics:
stop at the first failure, otherwise collect all column indices. -/
def resolveOutcomes : List ExprOutcome → Option (List Nat)
  | [] => some []
  | ExprOutcome.ok i :: rest => (resolveOutcomes rest).map (i :: ·)
  | ExprOutcome.fail :: _ => none

/-- `VSortExecExprs`, reduced to what the core reads from it:
whether tuple materialization is needed (and the outcome of each output
tuple expression), and the outcome of each ordering expression. -/
structure VSortExecExprs where
  /-- `none` when `need_materialize_tuple()` is false; otherwise one
  outcome per `sort_tuple_slot_expr_ctxs()` entry. -/
  sort_tuple_slot_outcomes : Option (List ExprOutcome)
  /-- One outcome per `lhs_ordering_expr_ctxs()` entry. -/
  lhs_ordering_outcomes : List ExprOutcome
deriving Repr, DecidableEq

/-- The constructor parameters of a `Sorter`/`FullSorter`. -/
structure SorterParams where
  vsort_exec_exprs : VSortExecExprs
  /-- `_limit` (an `int`); `-1` means unbounded. -/
  limit : Int
  /-- `_offset` (an `int64_t`, non-negative in any valid plan). -/
  offset : Nat
  is_asc_order : List Bool
  nulls_first : List Bool
  /-- Modelled from the spec: the flush-trigger threshold consulted by
  `_reach_limit()` (declared in `sorter.h`, which is not part of this
  slice); spec §4.2: a sort-and-admit step triggers when the accumulator's
  row count reaches a configured threshold. -/
  threshold : Nat
deriving Repr, DecidableEq

/-- The body of the loop at lines 91–98 of `sorter.cpp`: one
`SortColumnDescription` per ordering expression, with
`direction = _is_asc_order[i] ? 1 : -1` and
`nulls_direction = _nulls_first[i] ? -direction : direction`. -/
def buildSortDescription (nums : List Nat) (is_asc : List Bool)
    (nulls : List Bool) : SortDescription :=
  (List.range nums.length).map (fun i =>
    let dir : Int := if is_asc.getD i false then 1 else -1
    { column_number := nums.getD i 0
      direction := dir
      nulls_direction := if nulls.getD i false then -dir else dir })

/-- Row re-projection performed by tuple materialization: the new block
keeps, for each row, the cells of the valid column ids in order. -/
def projectRow (ids : List Nat) (r : Row) : Row := ids.map (fun i => cellAt r i)

/-- Modelled from the spec: `sort_block` (defined in
`vec/core/sort_block.cpp`, which is not part of this slice) sorts the
block's rows in place into total order under the description; per spec
§4.1 the call `sort_block(block, _sort_description, _offset + _limit)`
needs only the leading `offset + limit` rows ordered when a finite limit
is configured, and performs a full sort when the limit is unbounded.  We
model the canonical result satisfying that contract: the fully sorted
block (its leading rows are in particular the smallest ones, in order,
and no rows are dropped). -/
def sort_block (b : Block) (desc : SortDescription) : Block :=
  List.insertionSort (rowLE desc) b

/-- `Sorter::partial_sort` (lines 75–106): optionally re-project the block
through the output tuple expressions, resolve each ordering expression to
a column index building `_sort_description`, and sort the block.  A
failing expression evaluation propagates immediately (`none`). -/
def partial_sort (p : SorterParams) (b : Block) :
    Option (Block × SortDescription) :=
  match (match p.vsort_exec_exprs.sort_tuple_slot_outcomes with
         | none => some b
         | some outs => (resolveOutcomes outs).map (fun ids => b.map (projectRow ids))) with
  | none => none
  | some b1 =>
    match resolveOutcomes p.vsort_exec_exprs.lhs_ordering_outcomes with
    | none => none
    | some nums =>
      let desc := buildSortDescription nums p.is_asc_order p.nulls_first
      some (sort_block b1 desc, desc)

/-- The sort description `partial_sort` builds for a given parameter set
(the expression outcomes are fixed per query, so every call builds the
same description). -/
def descOf (p : SorterParams) : SortDescription :=
  match resolveOutcomes p.vsort_exec_exprs.lhs_ordering_outcomes with
  | some nums => buildSortDescription nums p.is_asc_order p.nulls_first
  | none => []

/-- All expression evaluations inside `partial_sort` succeed. -/
def exprsOkB (p : SorterParams) : Bool :=
  (match p.vsort_exec_exprs.sort_tuple_slot_outcomes with
   | none => true
   | some outs => (resolveOutcomes outs).isSome) &&
  (resolveOutcomes p.vsort_exec_exprs.lhs_ordering_outcomes).isSome

/-- All expression evaluations inside `partial_sort` succeed (as a
decidable proposition). -/
def exprsOk (p : SorterParams) : Prop := exprsOkB p = true

instance (p : SorterParams) : Decidable (exprsOk p) :=
  inferInstanceAs (Decidable (exprsOkB p = true))

/-- The rows `partial_sort` actually sorts: the block after the optional
tuple-materialization re-projection (the block itself when
`need_materialize_tuple()` is false or when an outcome failed — the
latter case is never reached on the success path). -/
def materializeRows (p : SorterParams) (b : Block) : Block :=
  match p.vsort_exec_exprs.sort_tuple_slot_outcomes with
  | none => b
  | some outs =>
    match resolveOutcomes outs with
    | some ids => b.map (projectRow ids)
    | none => b

/-! ### Merge state and the k-way merge -/

/-- A merge cursor over one sorted block (`MergeSortCursorImpl` plus its
position), modelled as the not-yet-consumed suffix of the block's rows:
the current row is the head, `next()` drops it, `isLast()` holds when one
row remains. -/
abbrev Cursor := List Row

/-- The cursor's current row (junk on an exhausted cursor, which the C++
never dereferences). -/
def currentRow (c : Cursor) : Row := c.headD []

/-- `MergeSorterState`: the accumulator block, the retained sorted blocks,
the cursor priority queue, the running total of retained rows used by
Top-N admission, and the remaining row offset to skip. -/
structure MergeSorterState where
  unsorted_block : List Row
  sorted_blocks : List Block
  priority_queue : List Cursor
  num_rows : Nat
  offset : Nat
deriving Repr, DecidableEq

/-- Pop the minimal cursor from the priority queue: the queue's comparator
orders cursors by `compareRow` on their current rows (ties broken
deterministically, here by list position). -/
def popMin (desc : SortDescription) : List Cursor → Option (Cursor × List Cursor)
  | [] => none
  | c :: cs =>
    match popMin desc cs with
    | none => some (c, [])
    | some (m, rest) =>
      if compareRow desc (currentRow m) (currentRow c) < 0 then
        some (m, c :: rest)
      else
        some (c, cs)

/-- Fuel bound for the merge loop: every iteration removes at least one
unit of this weight from the queue. -/
def qWeight (q : List Cursor) : Nat := (q.map (fun c => c.length + 1)).sum

/-- All rows still reachable through the queue's cursors. -/
def qRows (q : List Cursor) : List Row := q.flatten

/-- The queue invariant maintained by the merge: every cursor is
non-exhausted and reads a row-sorted block (spec §3, SortedCursor). -/
def queueInv (desc : SortDescription) (q : List Cursor) : Prop :=
  ∀ c ∈ q, c ≠ [] ∧ List.Sorted (rowLE desc) c

/-- The loop at lines 42–60 of `merge_sort_read`: pop the minimal cursor;
if `_offset` is zero append its current row to the output, else decrement
`_offset`; re-push the advanced cursor unless it was on its last row; stop
when `merged_rows == batch_size` or the queue is empty.  The `fuel`
argument is only a structural termination bound — callers pass
`qWeight q`, which the loop can never exhaust early. -/
def mergeLoop (desc : SortDescription) (batchSize : Nat) :
    Nat → List Cursor → Nat → List Row → List Cursor × Nat × List Row
  | 0, q, off, acc => (q, off, acc)
  | fuel + 1, q, off, acc =>
    match popMin desc q with
    | none => (q, off, acc)
    | some (c, rest) =>
      let step := if off = 0 then (acc ++ [currentRow c], 0) else (acc, off - 1)
      let q' := if c.tail.isEmpty then rest else c.tail :: rest
      if step.1.length = batchSize then (q', step.2, step.1)
      else mergeLoop desc batchSize fuel q' step.2 step.1

/-- Result of one `merge_sort_read`/`get_next` call: the new operator
state, the caller's output block after the call, the rows the call
emitted, and the end-of-stream flag. -/
structure MergeReadResult where
  state : MergeSorterState
  blockOut : List Row
  emitted : List Row
  eos : Bool
deriving Repr, DecidableEq

/-- `MergeSorterState::merge_sort_read` (lines 32–73): run the merge loop
for one output batch.  If zero rows were merged, set `*eos` and return
without touching the output block; otherwise the merged rows land in the
caller's block — appended into its columns when it is in memory-reuse
mode, or swapped in as a fresh block otherwise. -/
def MergeSorterState.merge_sort_read (m : MergeSorterState)
    (desc : SortDescription) (batchSize : Nat) (blockIn : List Row)
    (memReuse : Bool) : MergeReadResult :=
  let r := mergeLoop desc batchSize (qWeight m.priority_queue)
    m.priority_queue m.offset []
  let m' := { m with priority_queue := r.1, offset := r.2.1 }
  if r.2.2.length = 0 then
    { state := m', blockOut := blockIn, emitted := [], eos := true }
  else
    { state := m'
      blockOut := if memReuse then blockIn ++ r.2.2 else r.2.2
      emitted := r.2.2
      eos := false }

/-- `MergeSorterState::build_merge_tree` (lines 22–30): build one cursor
per retained block (each at position 0, i.e. the whole block), and push
them all into the priority queue only when more than one block exists. -/
def MergeSorterState.build_merge_tree (m : MergeSorterState) : MergeSorterState :=
  { m with priority_queue := if m.sorted_blocks.length > 1 then m.sorted_blocks else [] }

/-! ### The bounded Top-N heap (modelled from the spec) -/

/-- A block's worst row under the active description: its last row (the
block is kept sorted). -/
def lastRow (b : Block) : Row := b.getLastD []

/-- Modelled from the spec: the top of `_block_priority_queue`
(`BoundedTopNHeap`; `MergeSortBlockCursor` is declared outside this
slice).  Spec §3: a max-heap over whole sorted batches ordered by each
batch's worst (tail) row — the top is a block whose last row is maximal. -/
def heapTop (desc : SortDescription) : List Block → Option Block
  | [] => none
  | b :: bs =>
    match heapTop desc bs with
    | none => some b
    | some m => if compareRow desc (lastRow b) (lastRow m) < 0 then some m else some b

/-- Modelled from the spec: `MergeSortBlockCursor::totally_greater` —
every row of the candidate block is strictly worse (greater under the
description) than the heap top's worst row (spec §4.3b, glossary). -/
def totally_greater (desc : SortDescription) (cand top : Block) : Bool :=
  cand.all (fun r => 0 < compareRow desc r (lastRow top))

/-! ### FullSorter -/

/-- The complete state of a `FullSorter`: its constructor parameters, the
mutable `_sort_description` member, the owned `MergeSorterState`, and the
Top-N block heap (modelled as the list of blocks it holds). -/
structure FullSorterState where
  params : SorterParams
  sort_description : SortDescription
  mstate : MergeSorterState
  block_priority_queue : List Block
deriving Repr, DecidableEq

/-- The `FullSorter` constructor (lines 108–112): empty accumulator, no
sorted blocks, `num_rows = 0`, and the merge state's offset copied from
the operator's offset. -/
def FullSorterState.init (p : SorterParams) : FullSorterState :=
  { params := p
    sort_description := []
    mstate := { unsorted_block := [], sorted_blocks := [], priority_queue := []
                num_rows := 0, offset := p.offset }
    block_priority_queue := [] }

/-- `FullSorter::_do_sort` (lines 149–177): drain the accumulator into one
block, `partial_sort` it (propagating failure), then admit it.  Bounded
mode: while `num_rows < _limit` the block is retained and a cursor pushed
onto the Top-N heap — note that `_state->num_rows += block.rows()` runs
after `std::move(block)` has emptied the block, so it adds the moved-from
block's row count, `0`.  Once `num_rows >= _limit`, the block is dropped
exactly when it is totally greater than the heap top, else retained and
pushed.  (`top()` on an empty heap is undefined behaviour in the C++; the
model returns the state unchanged in that unreachable branch.)  Unbounded
mode retains every block.  The accumulator is reset in every non-error
path (`reset_block`); on the error path it has already been drained by
`to_block(0)`. -/
def FullSorterState.do_sort (S : FullSorterState) : FullSorterState × Status :=
  let block0 := S.mstate.unsorted_block
  let S0 := { S with mstate := { S.mstate with unsorted_block := [] } }
  match partial_sort S.params block0 with
  | none => (S0, Status.error)
  | some (block, desc) =>
    let S1 := { S0 with sort_description := desc }
    if S1.params.limit ≠ -1 then
      if (S1.mstate.num_rows : Int) < S1.params.limit then
        ({ S1 with
            mstate := { S1.mstate with
              sorted_blocks := S1.mstate.sorted_blocks ++ [block]
              num_rows := S1.mstate.num_rows + 0 }
            block_priority_queue := S1.block_priority_queue ++ [block] },
          Status.ok)
      else
        match heapTop desc S1.block_priority_queue with
        | some top =>
          if totally_greater desc block top then (S1, Status.ok)
          else
            ({ S1 with
                mstate := { S1.mstate with
                  sorted_blocks := S1.mstate.sorted_blocks ++ [block] }
                block_priority_queue := S1.block_priority_queue ++ [block] },
              Status.ok)
        | none => (S1, Status.ok)
    else
      ({ S1 with
          mstate := { S1.mstate with
            sorted_blocks := S1.mstate.sorted_blocks ++ [block] } },
        Status.ok)

/-- Modelled from the spec: `_reach_limit()` (declared in `sorter.h`,
not part of this slice) — the accumulator has reached the configured
flush threshold (spec §4.2). -/
def FullSorterState.reach_limit (S : FullSorterState) : Bool :=
  S.params.threshold ≤ S.mstate.unsorted_block.length

/-- `FullSorter::append_block` (lines 114–124): `DCHECK(block->rows() > 0)`
is a fatal contract assertion, modelled as `none`; otherwise merge the
batch into the accumulator and run a sort-and-admit step when the flush
threshold is reached, propagating its status. -/
def FullSorterState.append_block (S : FullSorterState) (b : Block) :
    Option (FullSorterState × Status) :=
  if b.length = 0 then none
  else
    let S1 := { S with mstate := { S.mstate with
      unsorted_block := S.mstate.unsorted_block ++ b } }
    if S1.reach_limit then some S1.do_sort
    else some (S1, Status.ok)

/-- `FullSorter::prepare_for_read` (lines 126–132): flush a non-empty
accumulator through `_do_sort` (propagating failure before the merge tree
is built), then build the merge tree. -/
def FullSorterState.prepare_for_read (S : FullSorterState) :
    FullSorterState × Status :=
  if S.mstate.unsorted_block.length > 0 then
    match S.do_sort with
    | (S', Status.error) => (S', Status.error)
    | (S', Status.ok) =>
      ({ S' with mstate := S'.mstate.build_merge_tree }, Status.ok)
  else
    ({ S with mstate := S.mstate.build_merge_tree }, Status.ok)

/-- Result of one `FullSorter::get_next` call. -/
structure GetNextResult where
  state : FullSorterState
  blockOut : List Row
  emitted : List Row
  eos : Bool
  status : Status
deriving Repr, DecidableEq

/-- `FullSorter::get_next` (lines 134–147).  No retained block: set
`*eos`, touch nothing.  Exactly one retained block: fast path —
`skip_num_rows(_offset)` drops the offset prefix, then the block is
swapped with the caller's block (the caller's old rows end up inside
`sorted_blocks[0]`) and `*eos` is set on the same call.  Otherwise run
`merge_sort_read` with the member sort description (captured by the
cursors at build time). -/
def FullSorterState.get_next (S : FullSorterState) (batchSize : Nat)
    (blockIn : List Row) (memReuse : Bool) : GetNextResult :=
  if S.mstate.sorted_blocks.isEmpty then
    { state := S, blockOut := blockIn, emitted := [], eos := true, status := Status.ok }
  else if S.mstate.sorted_blocks.length = 1 then
    let b := S.mstate.sorted_blocks.headD []
    let b' := if S.params.offset ≠ 0 then b.drop S.params.offset else b
    { state := { S with mstate := { S.mstate with sorted_blocks := [blockIn] } }
      blockOut := b', emitted := b', eos := true, status := Status.ok }
  else
    let r := S.mstate.merge_sort_read S.sort_description batchSize blockIn memReuse
    { state := { S with mstate := r.state }, blockOut := r.blockOut
      emitted := r.emitted, eos := r.eos, status := Status.ok }

/-! ### Driving the operator -/

/-- Append a sequence of input batches, stopping at the first failed
status (`none` models a fired `DCHECK`). -/
def append_all : FullSorterState → List Block → Option (FullSorterState × Status)
  | S, [] => some (S, Status.ok)
  | S, b :: bs =>
    match S.append_block b with
    | none => none
    | some (S', Status.error) => some (S', Status.error)
    | some (S', Status.ok) => append_all S' bs

/-- Result of draining an operator through repeated `get_next` calls. -/
structure DrainResult where
  state : FullSorterState
  output : List Row
  eosReached : Bool
deriving Repr, DecidableEq

/-- Call `get_next` repeatedly — each time with a fresh empty output block
not in memory-reuse mode — until end-of-stream, concatenating the emitted
rows.  `fuel` bounds the number of calls; every theorem supplies enough. -/
def drain (batchSize : Nat) : Nat → FullSorterState → DrainResult
  | 0, S => { state := S, output := [], eosReached := false }
  | fuel + 1, S =>
    let r := S.get_next batchSize [] false
    if r.eos then { state := r.state, output := r.emitted, eosReached := true }
    else
      let d := drain batchSize fuel r.state
      { state := d.state, output := r.emitted ++ d.output, eosReached := d.eosReached }

/-- Drain raw `merge_sort_read` calls (the general k-way merge path),
used to state the single-batch fast-path equivalence. -/
def mergeReadDrain (desc : SortDescription) (batchSize : Nat) :
    Nat → MergeSorterState → MergeSorterState × List Row × Bool
  | 0, m => (m, [], false)
  | fuel + 1, m =>
    let r := m.merge_sort_read desc batchSize [] false
    if r.eos then (r.state, r.emitted, true)
    else
      let d := mergeReadDrain desc batchSize fuel r.state
      (d.1, r.emitted ++ d.2.1, d.2.2)

/-- Total number of rows in a list of blocks. -/
def totalRows (bs : List Block) : Nat := (bs.map List.length).sum

/-- Run the full operator pipeline: append every input batch, prepare for
read, and drain via repeated `get_next` (with call fuel `totalRows + 1`,
always sufficient).  `none` models a fired fatal assertion; otherwise the
final status with the concatenated output rows and whether end-of-stream
was reached. -/
def run_pipeline (p : SorterParams) (inputs : List Block)
    (batchSize : Nat) : Option (Status × List Row × Bool) :=
  match append_all (FullSorterState.init p) inputs with
  | none => none
  | some (_, Status.error) => some (Status.error, [], false)
  | some (S1, Status.ok) =>
    match S1.prepare_for_read with
    | (_, Status.error) => some (Status.error, [], false)
    | (S2, Status.ok) =>
      let d := drain batchSize (totalRows inputs + 1) S2
      some (Status.ok, d.output, d.eosReached)

/-! ### Concrete fixtures, used by witnesses and counterexamples -/

/-- A sorter over a single ascending integer column resolved at index 0,
with the given limit, offset and flush threshold. -/
def simpleParams (lim : Int) (off : Nat) (thr : Nat) : SorterParams :=
  { vsort_exec_exprs := { sort_tuple_slot_outcomes := none
                          lhs_ordering_outcomes := [ExprOutcome.ok 0] }
    limit := lim
    offset := off
    is_asc_order := [true]
    nulls_first := [false]
    threshold := thr }

/-- A sorter whose single ordering expression fails to evaluate. -/
def failingParams : SorterParams :=
  { vsort_exec_exprs := { sort_tuple_slot_outcomes := none
                          lhs_ordering_outcomes := [ExprOutcome.fail] }
    limit := -1
    offset := 0
    is_asc_order := [true]
    nulls_first := [false]
    threshold := 1 }

/-- A state with exactly one retained sorted block of one row and
`offset = 1` (so a `get_next` call emits zero rows). -/
def oneBlockState : FullSorterState :=
  { params := simpleParams (-1) 1 100
    sort_description := descOf (simpleParams (-1) 1 100)
    mstate := { unsorted_block := [], sorted_blocks := [[[some 1]]]
                priority_queue := [], num_rows := 0, offset := 1 }
    block_priority_queue := [] }

/-- A bounded-mode state whose running total has reached `limit = 1`,
with one retained block `[5]` on the heap and a worse candidate `[9]`
waiting in the accumulator. -/
def atLimitState : FullSorterState :=
  { params := simpleParams 1 0 1
    sort_description := descOf (simpleParams 1 0 1)
    mstate := { unsorted_block := [[some 9]], sorted_blocks := [[[some 5]]]
                priority_queue := [], num_rows := 1, offset := 0 }
    block_priority_queue := [[[some 5]]] }

/-- A state with two retained single-row blocks, the merge tree built,
and an offset larger than the total row count (so a merge read emits
zero rows). -/
def twoBlockState : FullSorterState :=
  { params := simpleParams (-1) 5 100
    sort_description := descOf (simpleParams (-1) 5 100)
    mstate := { unsorted_block := []
                sorted_blocks := [[[some 1]], [[some 2]]]
                priority_queue := [[[some 1]], [[some 2]]]
                num_rows := 0, offset := 5 }
    block_priority_queue := [] }

/-- A state under `failingParams` with a drained-pending accumulator, one
retained block and a heap entry, used to witness failure framing. -/
def failingState : FullSorterState :=
  { params := failingParams
    sort_description := []
    mstate := { unsorted_block := [[some 3]], sorted_blocks := [[[some 0]]]
                priority_queue := [], num_rows := 0, offset := 0 }
    block_priority_queue := [[[some 0]]] }

/-! ### Basic properties of the row comparison -/

theorem compareCell_swap (h : Int) (a b : Cell) :
    compareCell h a b = -compareCell h b a := by
  cases a <;> cases b <;> simp only [compareCell] <;> omega

theorem compareCell_eq_zero {h : Int} (hh : h = 1 ∨ h = -1) {a b : Cell}
    (hz : compareCell h a b = 0) : a = b := by
  rcases hh with rfl | rfl <;> cases a <;> cases b <;>
    simp only [compareCell, Option.some.injEq] at hz ⊢ <;> omega

theorem compareCell_lt_trans {h : Int} (hh : h = 1 ∨ h = -1) {a b c : Cell}
    (h1 : compareCell h a b < 0) (h2 : compareCell h b c < 0) :
    compareCell h a c < 0 := by
  rcases hh with rfl | rfl <;> cases a <;> cases b <;> cases c <;>
    simp only [compareCell] at h1 h2 ⊢ <;> omega

theorem compareRowAt_swap (d : SortColumnDescription) (a b : Row) :
    compareRowAt d a b = -compareRowAt d b a := by
  unfold compareRowAt
  rw [compareCell_swap]
  ring

theorem compareRowAt_eq_zero {d : SortColumnDescription}
    (hd : d.nulls_direction = 1 ∨ d.nulls_direction = -1)
    (hdir : d.direction = 1 ∨ d.direction = -1) {a b : Row}
    (hz : compareRowAt d a b = 0) :
    cellAt a d.column_number = cellAt b d.column_number := by
  unfold compareRowAt at hz
  have : compareCell d.nulls_direction (cellAt a d.column_number)
      (cellAt b d.column_number) = 0 := by
    rcases hdir with h | h <;> rw [h] at hz <;> omega
  exact compareCell_eq_zero hd this

theorem compareRowAt_congr_left {d : SortColumnDescription} {a b : Row}
    (h : cellAt a d.column_number = cellAt b d.column_number) (c : Row) :
    compareRowAt d a c = compareRowAt d b c := by
  unfold compareRowAt
  rw [h]

theorem compareRowAt_congr_right {d : SortColumnDescription} {b c : Row}
    (h : cellAt b d.column_number = cellAt c d.column_number) (a : Row) :
    compareRowAt d a b = compareRowAt d a c := by
  unfold compareRowAt
  rw [h]

theorem compareRowAt_lt_trans {d : SortColumnDescription}
    (hd : d.nulls_direction = 1 ∨ d.nulls_direction = -1)
    (hdir : d.direction = 1 ∨ d.direction = -1) {a b c : Row}
    (h1 : compareRowAt d a b < 0) (h2 : compareRowAt d b c < 0) :
    compareRowAt d a c < 0 := by
  unfold compareRowAt at h1 h2 ⊢
  rcases hdir with h | h <;> rw [h] at h1 h2 ⊢
  · have := compareCell_lt_trans hd (by omega : compareCell d.nulls_direction
      (cellAt a d.column_number) (cellAt b d.column_number) < 0)
      (by omega : compareCell d.nulls_direction (cellAt b d.column_number)
      (cellAt c d.column_number) < 0)
    omega
  · rw [compareCell_swap] at h1 h2 ⊢
    have := compareCell_lt_trans hd (by omega : compareCell d.nulls_direction
      (cellAt c d.column_number) (cellAt b d.column_number) < 0)
      (by omega : compareCell d.nulls_direction (cellAt b d.column_number)
      (cellAt a d.column_number) < 0)
    omega

theorem compareRow_swap (desc : SortDescription) (a b : Row) :
    compareRow desc a b = -compareRow desc b a := by
  induction desc with
  | nil => simp [compareRow]
  | cons d rest ih =>
    simp only [compareRow]
    rw [compareRowAt_swap d a b]
    by_cases hz : compareRowAt d b a = 0
    · simp [hz, ih]
    · rw [if_neg hz, if_neg (by omega : ¬ -compareRowAt d b a = 0)]

theorem compareRow_self (desc : SortDescription) (a : Row) :
    compareRow desc a a = 0 := by
  have := compareRow_swap desc a a
  omega

theorem compareRow_le_trans {desc : SortDescription} (hv : ValidDesc desc)
    {a b c : Row} (h1 : compareRow desc a b ≤ 0) (h2 : compareRow desc b c ≤ 0) :
    compareRow desc a c ≤ 0 := by
  induction desc with
  | nil => simp [compareRow]
  | cons d rest ih =>
    have hd := hv d (List.mem_cons_self d rest)
    have hv' : ValidDesc rest := fun e he => hv e (List.mem_cons_of_mem d he)
    simp only [compareRow] at h1 h2 ⊢
    by_cases e1 : compareRowAt d a b = 0
    · have hcell : cellAt a d.column_number = cellAt b d.column_number :=
        compareRowAt_eq_zero hd.2 hd.1 e1
      rw [compareRowAt_congr_left hcell c]
      by_cases e2 : compareRowAt d b c = 0
      · rw [if_pos e2]
        rw [if_pos e1] at h1
        rw [if_pos e2] at h2
        exact ih hv' h1 h2
      · rw [if_neg e2]
        rw [if_neg e2] at h2
        exact h2
    · by_cases e2 : compareRowAt d b c = 0
      · have hcell : cellAt b d.column_number = cellAt c d.column_number :=
          compareRowAt_eq_zero hd.2 hd.1 e2
        rw [← compareRowAt_congr_right hcell a]
        rw [if_neg e1] at h1 ⊢
        exact h1
      · rw [if_neg e1] at h1
        rw [if_neg e2] at h2
        have hlt := compareRowAt_lt_trans hd.2 hd.1
          (by omega : compareRowAt d a b < 0) (by omega : compareRowAt d b c < 0)
        rw [if_neg (by omega : ¬ compareRowAt d a c = 0)]
        omega

theorem rowLE_trans {desc : SortDescription} (hv : ValidDesc desc) :
    ∀ {a b c : Row}, rowLE desc a b → rowLE desc b c → rowLE desc a c :=
  fun h1 h2 => compareRow_le_trans hv h1 h2

theorem rowLE_total (desc : SortDescription) (a b : Row) :
    rowLE desc a b ∨ rowLE desc b a := by
  unfold rowLE
  have := compareRow_swap desc a b
  omega

theorem rowLE_of_not_lt {desc : SortDescription} {a b : Row}
    (h : ¬ compareRow desc a b < 0) : rowLE desc b a := by
  unfold rowLE
  have := compareRow_swap desc a b
  omega

/-! ### partial_sort characterization -/

theorem partial_sort_of_exprsOk {p : SorterParams} (hex : exprsOk p) (b : Block) :
    partial_sort p b =
      some (sort_block (materializeRows p b) (descOf p), descOf p) := by
  unfold exprsOk exprsOkB at hex
  rw [Bool.and_eq_true] at hex
  obtain ⟨h1, h2⟩ := hex
  rw [Option.isSome_iff_exists] at h2
  obtain ⟨nums, hnums⟩ := h2
  unfold partial_sort materializeRows descOf
  cases hm : p.vsort_exec_exprs.sort_tuple_slot_outcomes with
  | none => simp [hnums]
  | some outs =>
    rw [hm] at h1
    simp only [Option.isSome_iff_exists] at h1
    obtain ⟨ids, hids⟩ := h1
    simp [hids, hnums]

theorem partial_sort_of_not_exprsOk {p : SorterParams} (hex : ¬ exprsOk p)
    (b : Block) : partial_sort p b = none := by
  unfold exprsOk exprsOkB at hex
  unfold partial_sort
  cases hm : p.vsort_exec_exprs.sort_tuple_slot_outcomes with
  | none =>
    cases ho : resolveOutcomes p.vsort_exec_exprs.lhs_ordering_outcomes with
    | none => simp [ho]
    | some nums =>
      exfalso
      apply hex
      simp [hm, ho]
  | some outs =>
    cases hi : resolveOutcomes outs with
    | none => simp [hi]
    | some ids =>
      cases ho : resolveOutcomes p.vsort_exec_exprs.lhs_ordering_outcomes with
      | none => simp [hi, ho]
      | some nums =>
        exfalso
        apply hex
        simp [hm, hi, ho]

theorem validDesc_buildSortDescription (nums : List Nat) (ia nf : List Bool) :
    ValidDesc (buildSortDescription nums ia nf) := by
  intro d hd
  unfold buildSortDescription at hd
  simp only [List.mem_map, List.mem_range] at hd
  obtain ⟨i, _, rfl⟩ := hd
  constructor
  · dsimp only
    split <;> simp
  · dsimp only
    split <;> split <;> simp

theorem validDesc_descOf (p : SorterParams) : ValidDesc (descOf p) := by
  unfold descOf
  split
  · exact validDesc_buildSortDescription _ _ _
  · intro d hd
    simp at hd

/-! ### sort_block properties -/

theorem sort_block_perm (b : Block) (desc : SortDescription) :
    List.Perm (sort_block b desc) b :=
  List.perm_insertionSort _ _

theorem sort_block_sorted {desc : SortDescription} (hv : ValidDesc desc)
    (b : Block) : List.Sorted (rowLE desc) (sort_block b desc) :=
  @List.sorted_insertionSort Row (rowLE desc) _
    ⟨fun a b => rowLE_total desc a b⟩
    ⟨fun _ _ _ h1 h2 => rowLE_trans hv h1 h2⟩ b

theorem pairwise_take_drop {α : Type} {R : α → α → Prop} {l : List α}
    (h : List.Pairwise R l) (n : Nat) :
    ∀ x ∈ l.take n, ∀ y ∈ l.drop n, R x y := by
  rw [← List.take_append_drop n l] at h
  exact (List.pairwise_append.mp h).2.2

theorem pairwise_take {α : Type} {R : α → α → Prop} {l : List α}
    (h : List.Pairwise R l) (n : Nat) : List.Pairwise R (l.take n) := by
  rw [← List.take_append_drop n l] at h
  exact (List.pairwise_append.mp h).1

/-! ### Priority-queue lemmas -/

theorem rowLE_refl (desc : SortDescription) (a : Row) : rowLE desc a a := by
  unfold rowLE
  rw [compareRow_self]

theorem popMin_eq_none {desc : SortDescription} {q : List Cursor}
    (h : popMin desc q = none) : q = [] := by
  cases q with
  | nil => rfl
  | cons c cs =>
    exfalso
    simp only [popMin] at h
    cases hm : popMin desc cs with
    | none => rw [hm] at h; exact Option.noConfusion h
    | some pr =>
      obtain ⟨m, rest⟩ := pr
      rw [hm] at h
      dsimp only at h
      by_cases hc : compareRow desc (currentRow m) (currentRow c) < 0
      · rw [if_pos hc] at h; exact Option.noConfusion h
      · rw [if_neg hc] at h; exact Option.noConfusion h

theorem popMin_perm {desc : SortDescription} {q : List Cursor} {c : Cursor}
    {rest : List Cursor} (h : popMin desc q = some (c, rest)) :
    List.Perm q (c :: rest) := by
  induction q generalizing c rest with
  | nil => simp [popMin] at h
  | cons c' cs ih =>
    simp only [popMin] at h
    cases hm : popMin desc cs with
    | none =>
      have hcs : cs = [] := popMin_eq_none hm
      rw [hm] at h
      rw [Option.some.injEq, Prod.mk.injEq] at h
      obtain ⟨rfl, hrest⟩ := h
      rw [hcs, ← hrest]
    | some pr =>
      obtain ⟨m, rest'⟩ := pr
      rw [hm] at h
      dsimp only at h
      by_cases hc : compareRow desc (currentRow m) (currentRow c') < 0
      · rw [if_pos hc] at h
        rw [Option.some.injEq, Prod.mk.injEq] at h
        obtain ⟨rfl, rfl⟩ := h
        exact ((ih hm).cons c').trans (List.Perm.swap m c' rest')
      · rw [if_neg hc] at h
        rw [Option.some.injEq, Prod.mk.injEq] at h
        obtain ⟨rfl, rfl⟩ := h
        exact List.Perm.refl _

theorem popMin_min {desc : SortDescription} (hv : ValidDesc desc)
    {q : List Cursor} {c : Cursor} {rest : List Cursor}
    (h : popMin desc q = some (c, rest)) :
    ∀ d ∈ rest, rowLE desc (currentRow c) (currentRow d) := by
  induction q generalizing c rest with
  | nil => simp [popMin] at h
  | cons c' cs ih =>
    simp only [popMin] at h
    cases hm : popMin desc cs with
    | none =>
      rw [hm] at h
      rw [Option.some.injEq, Prod.mk.injEq] at h
      obtain ⟨rfl, hrest⟩ := h
      intro d hd
      rw [← hrest] at hd
      exact absurd hd (List.not_mem_nil d)
    | some pr =>
      obtain ⟨m, rest'⟩ := pr
      rw [hm] at h
      dsimp only at h
      by_cases hc : compareRow desc (currentRow m) (currentRow c') < 0
      · rw [if_pos hc] at h
        rw [Option.some.injEq, Prod.mk.injEq] at h
        obtain ⟨rfl, rfl⟩ := h
        intro d hd
        rcases List.mem_cons.mp hd with rfl | hd'
        · exact Int.le_of_lt hc
        · exact ih hm d hd'
      · rw [if_neg hc] at h
        rw [Option.some.injEq, Prod.mk.injEq] at h
        obtain ⟨rfl, rfl⟩ := h
        intro d hd
        have hcm : rowLE desc (currentRow c') (currentRow m) := rowLE_of_not_lt hc
        have hdm : d ∈ m :: rest' := (popMin_perm hm).mem_iff.mp hd
        rcases List.mem_cons.mp hdm with rfl | hd'
        · exact hcm
        · exact rowLE_trans hv hcm (ih hm d hd')

theorem qWeight_perm {q q' : List Cursor} (h : List.Perm q q') :
    qWeight q = qWeight q' :=
  List.Perm.sum_eq (h.map _)

theorem qWeight_cons (c : Cursor) (rest : List Cursor) :
    qWeight (c :: rest) = (c.length + 1) + qWeight rest := by
  simp [qWeight]

/-! ### The merge-loop master lemma -/

theorem mergeLoop_spec {desc : SortDescription} (hv : ValidDesc desc)
    (batchSize : Nat) :
    ∀ (fuel : Nat) (q : List Cursor) (off : Nat) (acc : List Row),
      queueInv desc q → qWeight q ≤ fuel →
      ∃ popped : List Row,
        (mergeLoop desc batchSize fuel q off acc).2.2 = acc ++ popped.drop off ∧
        (mergeLoop desc batchSize fuel q off acc).2.1 = off - popped.length ∧
        List.Perm (qRows q)
          (popped ++ qRows (mergeLoop desc batchSize fuel q off acc).1) ∧
        List.Sorted (rowLE desc) popped ∧
        (∀ x ∈ popped, ∀ y ∈ qRows (mergeLoop desc batchSize fuel q off acc).1,
          rowLE desc x y) ∧
        queueInv desc (mergeLoop desc batchSize fuel q off acc).1 ∧
        ((mergeLoop desc batchSize fuel q off acc).1 = [] ∨
          (mergeLoop desc batchSize fuel q off acc).2.2.length = batchSize) ∧
        (q ≠ [] → popped ≠ []) := by
  intro fuel
  induction fuel with
  | zero =>
    intro q off acc hinv hw
    have hq : q = [] := by
      cases q with
      | nil => rfl
      | cons c cs => exfalso; rw [qWeight_cons] at hw; omega
    subst hq
    exact ⟨[], by simp [mergeLoop], by simp [mergeLoop],
      by simp [mergeLoop], by simp, by simp [mergeLoop],
      by simpa [mergeLoop] using hinv, Or.inl (by simp [mergeLoop]),
      fun h => absurd rfl h⟩
  | succ fuel ih =>
    intro q off acc hinv hw
    cases hq : popMin desc q with
    | none =>
      have hqnil : q = [] := popMin_eq_none hq
      subst hqnil
      exact ⟨[], by simp [mergeLoop, hq], by simp [mergeLoop, hq],
        by simp [mergeLoop, hq], by simp, by simp [mergeLoop, hq],
        by simpa [mergeLoop, hq] using hinv, Or.inl (by simp [mergeLoop, hq]),
        fun h => absurd rfl h⟩
    | some pr =>
      obtain ⟨c, rest⟩ := pr
      have hperm := popMin_perm hq
      have hmin := popMin_min hv hq
      have hcq : c ∈ q := hperm.mem_iff.mpr (List.mem_cons_self _ _)
      obtain ⟨hcne, hcsort⟩ := hinv c hcq
      obtain ⟨x, ctail, rfl⟩ : ∃ a t, c = a :: t := by
        cases c with
        | nil => exact absurd rfl hcne
        | cons a t => exact ⟨a, t, rfl⟩
      -- the advanced queue
      obtain ⟨q', hq2def, hq2rows, hq2inv, hq2w⟩ :
          ∃ q2, (if ctail.isEmpty then rest else ctail :: rest) = q2 ∧
            qRows q2 = ctail ++ qRows rest ∧
            queueInv desc q2 ∧
            qWeight q2 + 1 ≤ qWeight q := by
        have hrest : ∀ e ∈ rest, e ≠ [] ∧ List.Sorted (rowLE desc) e :=
          fun e he => hinv e (hperm.mem_iff.mpr (List.mem_cons_of_mem _ he))
        have hwq : qWeight q = (ctail.length + 2) + qWeight rest := by
          rw [qWeight_perm hperm, qWeight_cons]
          simp only [List.length_cons]
        cases ctail with
        | nil =>
          exact ⟨rest, by simp, by simp [qRows], hrest, by omega⟩
        | cons a t =>
          refine ⟨(a :: t) :: rest, by simp, by simp [qRows], ?_, ?_⟩
          · intro d hd
            rcases List.mem_cons.mp hd with rfl | hd'
            · exact ⟨List.cons_ne_nil a t, hcsort.of_cons⟩
            · exact hrest d hd'
          · rw [qWeight_cons]
            simp at hwq ⊢
            omega
      -- x is below everything that remains reachable
      have hxle : ∀ y ∈ qRows q', rowLE desc x y := by
        rw [hq2rows]
        intro y hy
        rcases List.mem_append.mp hy with hy | hy
        · exact List.rel_of_sorted_cons hcsort y hy
        · obtain ⟨d, hd, hyd⟩ := List.mem_flatten.mp hy
          have hdq : d ∈ q := hperm.mem_iff.mpr (List.mem_cons_of_mem _ hd)
          obtain ⟨hdne, hdsort⟩ := hinv d hdq
          have hxd : rowLE desc x (currentRow d) := hmin d hd
          obtain ⟨dh, dt, rfl⟩ : ∃ a t, d = a :: t := by
            cases d with
            | nil => exact absurd rfl hdne
            | cons a t => exact ⟨a, t, rfl⟩
          have hxdh : rowLE desc x dh := hxd
          rcases List.mem_cons.mp hyd with rfl | hyt
          · exact hxdh
          · exact rowLE_trans hv hxdh (List.rel_of_sorted_cons hdsort y hyt)
      have hqrows : List.Perm (qRows q) (x :: qRows q') := by
        rw [hq2rows]
        have h1 : List.Perm (qRows q) (qRows ((x :: ctail) :: rest)) :=
          hperm.flatten
        simpa [qRows] using h1
      -- unfold one loop iteration
      have hunf : mergeLoop desc batchSize (fuel + 1) q off acc =
          (if (if off = 0 then (acc ++ [x], 0) else (acc, off - 1)).1.length
              = batchSize then
            (q', (if off = 0 then (acc ++ [x], 0) else (acc, off - 1)).2,
              (if off = 0 then (acc ++ [x], 0) else (acc, off - 1)).1)
          else
            mergeLoop desc batchSize fuel q'
              (if off = 0 then (acc ++ [x], 0) else (acc, off - 1)).2
              (if off = 0 then (acc ++ [x], 0) else (acc, off - 1)).1) := by
        conv_lhs => rw [mergeLoop]
        rw [hq]
        dsimp only [currentRow, List.headD, List.tail]
        rw [hq2def]
      by_cases hoff : off = 0
      · subst hoff
        rw [if_pos rfl] at hunf
        dsimp only at hunf
        by_cases hstop : (acc ++ [x]).length = batchSize
        · rw [if_pos hstop] at hunf
          rw [hunf]
          refine ⟨[x], by simp, by simp, by simpa using hqrows,
            List.sorted_singleton x, ?_, hq2inv, Or.inr (by simpa using hstop),
            fun _ => List.cons_ne_nil x []⟩
          intro z hz y hy
          rcases List.mem_singleton.mp hz with rfl
          exact hxle y hy
        · rw [if_neg hstop] at hunf
          rw [hunf]
          obtain ⟨popped', h1, h2, h3, h4, h5, h6, h7, _⟩ :=
            ih q' 0 (acc ++ [x]) hq2inv (by omega)
          refine ⟨x :: popped', ?_, ?_, ?_, ?_, ?_, h6, h7,
            fun _ => List.cons_ne_nil x popped'⟩
          · rw [h1]
            simp
          · rw [h2]
            simp
          · exact hqrows.trans ((h3.cons x).trans (List.Perm.refl _))
          · rw [List.sorted_cons]
            refine ⟨?_, h4⟩
            intro b hb
            exact hxle b (h3.mem_iff.mpr (List.mem_append_left _ hb))
          · intro z hz y hy
            rcases List.mem_cons.mp hz with rfl | hz'
            · exact hxle y (h3.mem_iff.mpr (List.mem_append_right _ hy))
            · exact h5 z hz' y hy
      · obtain ⟨n, rfl⟩ : ∃ n, off = n + 1 := by
          cases off with
          | zero => exact absurd rfl hoff
          | succ n => exact ⟨n, rfl⟩
        rw [if_neg hoff] at hunf
        dsimp only at hunf
        simp only [Nat.add_sub_cancel] at hunf
        by_cases hstop : acc.length = batchSize
        · rw [if_pos hstop] at hunf
          rw [hunf]
          refine ⟨[x], by simp, by simp, by simpa using hqrows,
            List.sorted_singleton x, ?_, hq2inv, Or.inr (by simpa using hstop),
            fun _ => List.cons_ne_nil x []⟩
          intro z hz y hy
          rcases List.mem_singleton.mp hz with rfl
          exact hxle y hy
        · rw [if_neg hstop] at hunf
          rw [hunf]
          obtain ⟨popped', h1, h2, h3, h4, h5, h6, h7, _⟩ :=
            ih q' n acc hq2inv (by omega)
          refine ⟨x :: popped', ?_, ?_, ?_, ?_, ?_, h6, h7,
            fun _ => List.cons_ne_nil x popped'⟩
          · rw [h1]
            simp
          · rw [h2]
            simp
          · exact hqrows.trans ((h3.cons x).trans (List.Perm.refl _))
          · rw [List.sorted_cons]
            refine ⟨?_, h4⟩
            intro b hb
            exact hxle b (h3.mem_iff.mpr (List.mem_append_left _ hb))
          · intro z hz y hy
            rcases List.mem_cons.mp hz with rfl | hz'
            · exact hxle y (h3.mem_iff.mpr (List.mem_append_right _ hy))
            · exact h5 z hz' y hy

/-! ### Draining the merge path -/

theorem get_next_merge_path (S : FullSorterState) (batchSize : Nat)
    (blockIn : List Row) (memReuse : Bool)
    (h2 : 2 ≤ S.mstate.sorted_blocks.length) :
    S.get_next batchSize blockIn memReuse =
      (let L := mergeLoop S.sort_description batchSize
          (qWeight S.mstate.priority_queue) S.mstate.priority_queue
          S.mstate.offset []
       if L.2.2.length = 0 then
         { state := { S with mstate := { S.mstate with
              priority_queue := L.1, offset := L.2.1 } }
           blockOut := blockIn, emitted := [], eos := true
           status := Status.ok }
       else
         { state := { S with mstate := { S.mstate with
              priority_queue := L.1, offset := L.2.1 } }
           blockOut := if memReuse then blockIn ++ L.2.2 else L.2.2
           emitted := L.2.2, eos := false, status := Status.ok }) := by
  have hne : ¬ S.mstate.sorted_blocks.isEmpty = true := by
    cases hb : S.mstate.sorted_blocks with
    | nil => rw [hb] at h2; simp at h2
    | cons a l => simp
  have hn1 : ¬ S.mstate.sorted_blocks.length = 1 := by omega
  unfold FullSorterState.get_next MergeSorterState.merge_sort_read
  rw [if_neg hne, if_neg hn1]
  dsimp only
  split
  · rfl
  · rfl

theorem drain_merge_spec {desc : SortDescription} (hv : ValidDesc desc)
    {batchSize : Nat} (hbs : 1 ≤ batchSize) :
    ∀ (fuel : Nat) (S : FullSorterState),
      S.sort_description = desc →
      2 ≤ S.mstate.sorted_blocks.length →
      queueInv desc S.mstate.priority_queue →
      (qRows S.mstate.priority_queue).length < fuel →
      ∃ popped : List Row,
        List.Perm (qRows S.mstate.priority_queue) popped ∧
        List.Sorted (rowLE desc) popped ∧
        (drain batchSize fuel S).output = popped.drop S.mstate.offset ∧
        (drain batchSize fuel S).eosReached = true ∧
        (drain batchSize fuel S).state.mstate.sorted_blocks =
          S.mstate.sorted_blocks := by
  intro fuel
  induction fuel with
  | zero =>
    intro S _ _ _ hlen
    exact absurd hlen (by omega)
  | succ fuel ih =>
    intro S hdesc hblocks hinv hlen
    subst hdesc
    have hgn := get_next_merge_path S batchSize [] false hblocks
    obtain ⟨popped₁, h1, h2, h3, h4, h5, h6, h7, _⟩ :=
      mergeLoop_spec hv batchSize (qWeight S.mstate.priority_queue)
        S.mstate.priority_queue S.mstate.offset [] hinv (le_refl _)
    simp only [List.nil_append] at h1
    set L := mergeLoop S.sort_description batchSize
      (qWeight S.mstate.priority_queue)
      S.mstate.priority_queue S.mstate.offset [] with hL
    by_cases hemt : L.2.2.length = 0
    · -- zero rows merged: eos on this call, queue was fully drained
      have hq1 : L.1 = [] := by
        rcases h7 with h | h
        · exact h
        · rw [hemt] at h; omega
      have hdrop : popped₁.drop S.mstate.offset = [] := by
        rw [← h1]
        exact List.length_eq_zero.mp hemt
      refine ⟨popped₁, ?_, h4, ?_, ?_, ?_⟩
      · have := h3
        rw [hq1] at this
        simpa [qRows] using this
      · unfold drain
        rw [hgn]
        dsimp only
        rw [if_pos hemt, if_pos rfl]
        exact hdrop.symm
      · unfold drain
        rw [hgn]
        dsimp only
        rw [if_pos hemt, if_pos rfl]
      · unfold drain
        rw [hgn]
        dsimp only
        rw [if_pos hemt, if_pos rfl]
    · -- some rows merged: recurse
      have hpne : popped₁ ≠ [] := by
        intro hnil
        rw [hnil] at h1
        simp at h1
        rw [h1] at hemt
        exact hemt rfl
      have hlen1 : (qRows L.1).length < fuel := by
        have hperm := h3.length_eq
        rw [List.length_append] at hperm
        have : 1 ≤ popped₁.length := by
          cases popped₁ with
          | nil => exact absurd rfl hpne
          | cons a l => simp
        omega
      set S' : FullSorterState := { S with mstate := { S.mstate with
        priority_queue := L.1, offset := L.2.1 } } with hS'
      obtain ⟨popped₂, g1, g2, g3, g4, g5⟩ := ih S' rfl hblocks h6 hlen1
      refine ⟨popped₁ ++ popped₂, ?_, ?_, ?_, ?_, ?_⟩
      · exact h3.trans (List.Perm.append_left popped₁ g1)
      · rw [List.Sorted, List.pairwise_append]
        refine ⟨h4, g2, ?_⟩
        intro x hx y hy
        exact h5 x hx y (g1.mem_iff.mpr hy)
      · unfold drain
        rw [hgn]
        dsimp only
        rw [if_neg hemt]
        rw [if_neg Bool.false_ne_true]
        dsimp only
        rw [h1, g3]
        have hoff' : S'.mstate.offset = L.2.1 := rfl
        rw [hoff', h2, List.drop_append_eq_append_drop]
      · unfold drain
        rw [hgn]
        dsimp only
        rw [if_neg hemt]
        rw [if_neg Bool.false_ne_true]
        dsimp only
        exact g4
      · unfold drain
        rw [hgn]
        dsimp only
        rw [if_neg hemt]
        rw [if_neg Bool.false_ne_true]
        dsimp only
        rw [g5]

/-! ### Sort-and-admit and pipeline lemmas -/

theorem materializeRows_id {p : SorterParams}
    (h : p.vsort_exec_exprs.sort_tuple_slot_outcomes = none) (b : Block) :
    materializeRows p b = b := by
  unfold materializeRows
  rw [h]

theorem materializeRows_length (p : SorterParams) (b : Block) :
    (materializeRows p b).length = b.length := by
  unfold materializeRows
  split
  · rfl
  · split
    · exact List.length_map _ _
    · rfl

theorem sort_block_length (b : Block) (desc : SortDescription) :
    (sort_block b desc).length = b.length :=
  (sort_block_perm b desc).length_eq

theorem sort_block_ne_nil {b : Block} (hb : b ≠ []) (desc : SortDescription) :
    sort_block b desc ≠ [] := by
  intro h
  apply hb
  have := sort_block_length b desc
  rw [h] at this
  exact List.length_eq_zero.mp this.symm

theorem do_sort_ok_components (S : FullSorterState) (hex : exprsOk S.params) :
    S.do_sort.2 = Status.ok ∧
    S.do_sort.1.params = S.params ∧
    S.do_sort.1.sort_description = descOf S.params ∧
    S.do_sort.1.mstate.unsorted_block = [] ∧
    S.do_sort.1.mstate.priority_queue = S.mstate.priority_queue ∧
    S.do_sort.1.mstate.offset = S.mstate.offset ∧
    S.do_sort.1.mstate.num_rows = S.mstate.num_rows ∧
    (S.do_sort.1.mstate.sorted_blocks = S.mstate.sorted_blocks ∨
      S.do_sort.1.mstate.sorted_blocks = S.mstate.sorted_blocks ++
        [sort_block (materializeRows S.params S.mstate.unsorted_block)
          (descOf S.params)]) := by
  unfold FullSorterState.do_sort
  dsimp only
  rw [partial_sort_of_exprsOk hex]
  dsimp only
  by_cases hlim : S.params.limit ≠ -1
  · rw [if_pos hlim]
    by_cases hnum : (S.mstate.num_rows : Int) < S.params.limit
    · rw [if_pos hnum]
      exact ⟨rfl, rfl, rfl, rfl, rfl, rfl, rfl, Or.inr rfl⟩
    · rw [if_neg hnum]
      cases htop : heapTop (descOf S.params) S.block_priority_queue with
      | none => exact ⟨rfl, rfl, rfl, rfl, rfl, rfl, rfl, Or.inl rfl⟩
      | some top =>
        dsimp only
        split
        · exact ⟨rfl, rfl, rfl, rfl, rfl, rfl, rfl, Or.inl rfl⟩
        · exact ⟨rfl, rfl, rfl, rfl, rfl, rfl, rfl, Or.inr rfl⟩
  · rw [if_neg hlim]
    exact ⟨rfl, rfl, rfl, rfl, rfl, rfl, rfl, Or.inr rfl⟩

theorem do_sort_appends_block (S : FullSorterState) (hex : exprsOk S.params)
    (hnum : S.mstate.num_rows = 0)
    (hlim : S.params.limit = -1 ∨ 1 ≤ S.params.limit) :
    S.do_sort.1.mstate.sorted_blocks = S.mstate.sorted_blocks ++
      [sort_block (materializeRows S.params S.mstate.unsorted_block)
        (descOf S.params)] := by
  unfold FullSorterState.do_sort
  dsimp only
  rw [partial_sort_of_exprsOk hex]
  dsimp only
  rcases hlim with hlim | hlim
  · rw [if_neg (fun h => h hlim)]
  · rw [if_pos (by omega : S.params.limit ≠ -1)]
    rw [if_pos (by rw [hnum]; omega : (S.mstate.num_rows : Int) < S.params.limit)]

theorem append_block_spec (S : FullSorterState) (b : Block)
    (hex : exprsOk S.params) (hnum : S.mstate.num_rows = 0)
    (hlim : S.params.limit = -1 ∨ 1 ≤ S.params.limit) (hb : b ≠ []) :
    ∃ S', S.append_block b = some (S', Status.ok) ∧
      S'.params = S.params ∧
      S'.mstate.priority_queue = S.mstate.priority_queue ∧
      S'.mstate.offset = S.mstate.offset ∧
      S'.mstate.num_rows = 0 ∧
      ((S'.mstate.sorted_blocks = S.mstate.sorted_blocks ∧
        S'.sort_description = S.sort_description ∧
        S'.mstate.unsorted_block = S.mstate.unsorted_block ++ b) ∨
       (S'.mstate.sorted_blocks = S.mstate.sorted_blocks ++
          [sort_block (materializeRows S.params (S.mstate.unsorted_block ++ b))
            (descOf S.params)] ∧
        S'.sort_description = descOf S.params ∧
        S'.mstate.unsorted_block = [])) := by
  unfold FullSorterState.append_block
  rw [if_neg (fun hl => hb (List.length_eq_zero.mp hl))]
  dsimp only
  set S1 : FullSorterState := { S with mstate := { S.mstate with
    unsorted_block := S.mstate.unsorted_block ++ b } } with hS1
  by_cases hrl : S1.reach_limit = true
  · rw [if_pos hrl]
    have h := do_sort_ok_components S1 hex
    have happ := do_sort_appends_block S1 hex hnum hlim
    refine ⟨S1.do_sort.1, ?_, h.2.1, h.2.2.2.2.1, h.2.2.2.2.2.1,
      by rw [h.2.2.2.2.2.2.1]; exact hnum, Or.inr ⟨happ, h.2.2.1, h.2.2.2.1⟩⟩
    rw [← h.1]
  · rw [if_neg hrl]
    exact ⟨S1, rfl, rfl, rfl, rfl, hnum, Or.inl ⟨rfl, rfl, rfl⟩⟩

theorem totalRows_cons (b : Block) (bs : List Block) :
    totalRows (b :: bs) = b.length + totalRows bs := by
  simp [totalRows]

theorem totalRows_append (l₁ l₂ : List Block) :
    totalRows (l₁ ++ l₂) = totalRows l₁ + totalRows l₂ := by
  simp [totalRows]

theorem length_flatten_eq_totalRows (L : List Block) :
    L.flatten.length = totalRows L := by
  simp [totalRows]

theorem append_all_spec (p : SorterParams) (hex : exprsOk p)
    (hlim : p.limit = -1 ∨ 1 ≤ p.limit) :
    ∀ (inputs : List Block) (S : FullSorterState),
      S.params = p → S.mstate.num_rows = 0 →
      (∀ b ∈ inputs, b ≠ []) →
      ∃ S' newBlocks,
        append_all S inputs = some (S', Status.ok) ∧
        S'.params = p ∧
        S'.mstate.priority_queue = S.mstate.priority_queue ∧
        S'.mstate.offset = S.mstate.offset ∧
        S'.mstate.num_rows = 0 ∧
        S'.mstate.sorted_blocks = S.mstate.sorted_blocks ++ newBlocks ∧
        (∀ nb ∈ newBlocks, nb ≠ [] ∧ List.Sorted (rowLE (descOf p)) nb) ∧
        ((newBlocks = [] ∧ S'.sort_description = S.sort_description ∧
           S'.mstate.unsorted_block = S.mstate.unsorted_block ++ inputs.flatten) ∨
         S'.sort_description = descOf p) ∧
        totalRows S'.mstate.sorted_blocks + S'.mstate.unsorted_block.length ≤
          totalRows S.mstate.sorted_blocks + S.mstate.unsorted_block.length +
            totalRows inputs ∧
        (p.vsort_exec_exprs.sort_tuple_slot_outcomes = none →
          List.Perm
            (S'.mstate.sorted_blocks.flatten ++ S'.mstate.unsorted_block)
            (S.mstate.sorted_blocks.flatten ++ S.mstate.unsorted_block ++
              inputs.flatten)) := by
  intro inputs
  induction inputs with
  | nil =>
    intro S hp hnum _
    refine ⟨S, [], rfl, hp, rfl, rfl, hnum, by simp, by simp, ?_, by simp, ?_⟩
    · exact Or.inl ⟨rfl, rfl, by simp⟩
    · intro _
      simp
  | cons b bs ih =>
    intro S hp hnum hne
    obtain ⟨S₁, heq, hp₁, hq₁, ho₁, hn₁, hcase⟩ :=
      append_block_spec S b (hp ▸ hex) hnum (hp ▸ hlim)
        (hne b (List.mem_cons_self b bs))
    obtain ⟨S', nb₂, heq₂, hp₂, hq₂, ho₂, hn₂, hbl₂, hinv₂, hdesc₂, hlen₂, hcons₂⟩ :=
      ih S₁ (hp₁.trans hp) hn₁ (fun e he => hne e (List.mem_cons_of_mem b he))
    have hmain : append_all S (b :: bs) = some (S', Status.ok) := by
      unfold append_all
      rw [heq]
      exact heq₂
    rcases hcase with ⟨hbl, hsd, hub⟩ | ⟨hbl, hsd, hub⟩
    · -- no flush happened on this batch
      refine ⟨S', nb₂, hmain, hp₂, hq₂.trans hq₁, ho₂.trans ho₁, hn₂,
        by rw [hbl₂, hbl], hinv₂, ?_, ?_, ?_⟩
      · rcases hdesc₂ with ⟨hnb, hsd₂, hub₂⟩ | hsd₂
        · exact Or.inl ⟨hnb, hsd₂.trans hsd,
            by rw [hub₂, hub]; simp⟩
        · exact Or.inr hsd₂
      · rw [hbl] at hlen₂
        rw [hub] at hlen₂
        simp only [List.length_append] at hlen₂
        rw [totalRows_cons]
        omega
      · intro hmat
        have h1 := hcons₂ hmat
        rw [hbl, hub] at h1
        refine h1.trans ?_
        simp
    · -- this batch triggered a sort-and-admit step
      have hcandne : sort_block (materializeRows p (S.mstate.unsorted_block ++ b))
          (descOf p) ≠ [] := by
        apply sort_block_ne_nil
        intro hm
        have := materializeRows_length p (S.mstate.unsorted_block ++ b)
        rw [hm] at this
        have hb0 := List.length_eq_zero.mp this.symm
        have : b = [] := by
          rcases List.append_eq_nil.mp hb0 with ⟨_, h⟩
          exact h
        exact hne b (List.mem_cons_self b bs) this
      refine ⟨S', sort_block (materializeRows p (S.mstate.unsorted_block ++ b))
          (descOf p) :: nb₂, hmain, hp₂, hq₂.trans hq₁, ho₂.trans ho₁, hn₂,
        ?_, ?_, Or.inr ?_, ?_, ?_⟩
      · rw [hbl₂, hbl, hp]
        simp
      · intro nb hnb
        rcases List.mem_cons.mp hnb with rfl | hnb'
        · exact ⟨hcandne, sort_block_sorted (validDesc_descOf p) _⟩
        · exact hinv₂ nb hnb'
      · rcases hdesc₂ with ⟨_, hsd₂, _⟩ | hsd₂
        · rw [hsd₂, hsd, hp]
        · exact hsd₂
      · rw [hbl, hub, hp] at hlen₂
        have hta : totalRows (S.mstate.sorted_blocks ++
              [sort_block (materializeRows p (S.mstate.unsorted_block ++ b))
                (descOf p)])
            = totalRows S.mstate.sorted_blocks +
              (sort_block (materializeRows p (S.mstate.unsorted_block ++ b))
                (descOf p)).length := by
          rw [totalRows_append, totalRows_cons]
          simp [totalRows]
        have hc : (sort_block (materializeRows p (S.mstate.unsorted_block ++ b))
            (descOf p)).length = S.mstate.unsorted_block.length + b.length := by
          rw [sort_block_length, materializeRows_length, List.length_append]
        rw [hta, hc] at hlen₂
        rw [totalRows_cons]
        simp only [List.length_nil] at hlen₂
        omega
      · intro hmat
        have h1 := hcons₂ hmat
        rw [hbl, hub, hp] at h1
        refine h1.trans ?_
        have hcand : List.Perm (sort_block (materializeRows p
            (S.mstate.unsorted_block ++ b)) (descOf p))
            (S.mstate.unsorted_block ++ b) := by
          rw [materializeRows_id hmat]
          exact sort_block_perm _ _
        have heq1 : (S.mstate.sorted_blocks ++ [sort_block (materializeRows p
              (S.mstate.unsorted_block ++ b)) (descOf p)]).flatten ++ [] ++
              bs.flatten
            = S.mstate.sorted_blocks.flatten ++ (sort_block (materializeRows p
              (S.mstate.unsorted_block ++ b)) (descOf p) ++ bs.flatten) := by
          simp
        have heq2 : S.mstate.sorted_blocks.flatten ++ S.mstate.unsorted_block ++
              (b :: bs).flatten
            = S.mstate.sorted_blocks.flatten ++
              ((S.mstate.unsorted_block ++ b) ++ bs.flatten) := by
          simp
        rw [heq1, heq2]
        exact List.Perm.append_left _ (hcand.append_right _)

theorem prepare_for_read_spec (S : FullSorterState) (hex : exprsOk S.params)
    (hnum : S.mstate.num_rows = 0)
    (hlim : S.params.limit = -1 ∨ 1 ≤ S.params.limit) :
    ∃ S2, S.prepare_for_read = (S2, Status.ok) ∧
      S2.params = S.params ∧
      S2.mstate.offset = S.mstate.offset ∧
      S2.mstate.priority_queue =
        (if S2.mstate.sorted_blocks.length > 1 then S2.mstate.sorted_blocks
         else []) ∧
      ((S2.mstate.sorted_blocks = S.mstate.sorted_blocks ∧
         S2.sort_description = S.sort_description ∧
         S.mstate.unsorted_block = []) ∨
       (S2.mstate.sorted_blocks = S.mstate.sorted_blocks ++
          [sort_block (materializeRows S.params S.mstate.unsorted_block)
            (descOf S.params)] ∧
        S2.sort_description = descOf S.params ∧
        S.mstate.unsorted_block ≠ [])) ∧
      totalRows S2.mstate.sorted_blocks ≤
        totalRows S.mstate.sorted_blocks + S.mstate.unsorted_block.length ∧
      (S.params.vsort_exec_exprs.sort_tuple_slot_outcomes = none →
        List.Perm S2.mstate.sorted_blocks.flatten
          (S.mstate.sorted_blocks.flatten ++ S.mstate.unsorted_block)) := by
  unfold FullSorterState.prepare_for_read
  by_cases hub : S.mstate.unsorted_block.length > 0
  · rw [if_pos hub]
    have h := do_sort_ok_components S hex
    have happ := do_sort_appends_block S hex hnum hlim
    have hds : S.do_sort = (S.do_sort.1, Status.ok) := by
      rw [← h.1]
    rw [hds]
    dsimp only
    have hubne : S.mstate.unsorted_block ≠ [] := by
      intro hh
      rw [hh] at hub
      simp at hub
    refine ⟨_, rfl, h.2.1, h.2.2.2.2.2.1, ?_, Or.inr ⟨happ, h.2.2.1, hubne⟩,
      ?_, ?_⟩
    · unfold MergeSorterState.build_merge_tree
      rfl
    · unfold MergeSorterState.build_merge_tree
      dsimp only
      rw [happ, totalRows_append, totalRows_cons, sort_block_length,
        materializeRows_length]
      simp [totalRows]
    · intro hmat
      unfold MergeSorterState.build_merge_tree
      dsimp only
      rw [happ, List.flatten_append]
      simp only [List.flatten_cons, List.flatten_nil, List.append_nil]
      exact List.Perm.append_left _
        (by rw [materializeRows_id hmat]; exact sort_block_perm _ _)
  · rw [if_neg hub]
    have hubnil : S.mstate.unsorted_block = [] := by
      cases hu : S.mstate.unsorted_block with
      | nil => rfl
      | cons a l => rw [hu] at hub; simp at hub
    refine ⟨_, rfl, rfl, rfl, ?_, Or.inl ⟨rfl, rfl, hubnil⟩,
      by unfold MergeSorterState.build_merge_tree; simp, ?_⟩
    · unfold MergeSorterState.build_merge_tree
      rfl
    · intro _
      unfold MergeSorterState.build_merge_tree
      rw [hubnil]
      simp

theorem get_next_empty_blocks (S : FullSorterState) (batchSize : Nat)
    (blockIn : List Row) (memReuse : Bool)
    (h : S.mstate.sorted_blocks = []) :
    S.get_next batchSize blockIn memReuse =
      { state := S, blockOut := blockIn, emitted := [], eos := true
        status := Status.ok } := by
  unfold FullSorterState.get_next
  rw [h]
  simp

theorem get_next_single_block (S : FullSorterState) (batchSize : Nat)
    (blockIn : List Row) (memReuse : Bool) (b : Block)
    (hb : S.mstate.sorted_blocks = [b]) :
    S.get_next batchSize blockIn memReuse =
      { state := { S with mstate := { S.mstate with
          sorted_blocks := [blockIn] } }
        blockOut := b.drop S.params.offset
        emitted := b.drop S.params.offset
        eos := true, status := Status.ok } := by
  unfold FullSorterState.get_next
  rw [hb]
  simp only [List.isEmpty_cons, List.length_cons, List.length_nil,
    Bool.false_eq_true, if_false, if_pos rfl, List.headD_cons]
  by_cases ho : S.params.offset ≠ 0
  · rw [if_pos ho]
    simp
  · rw [if_neg ho]
    push_neg at ho
    rw [ho]
    simp

/-- Master pipeline lemma: `append_all` → `prepare_for_read` → drained
`get_next` reaches end-of-stream, and the concatenated emitted rows
extend by a `skipped` list of `min offset (total retained rows)` rows to
a sorted permutation of all rows of the retained sorted blocks. -/
theorem pipeline_output_spec (p : SorterParams)
    (inputs : List Block) (batchSize : Nat)
    (hex : exprsOk p)
    (hne : ∀ b ∈ inputs, b ≠ [])
    (hlim : p.limit = -1 ∨ 1 ≤ p.limit)
    (hbs : 1 ≤ batchSize) :
    ∃ S1 S2 skipped,
      append_all (FullSorterState.init p) inputs = some (S1, Status.ok) ∧
      S1.prepare_for_read = (S2, Status.ok) ∧
      (drain batchSize (totalRows inputs + 1) S2).eosReached = true ∧
      skipped.length = min p.offset (totalRows S2.mstate.sorted_blocks) ∧
      List.Sorted (rowLE (descOf p))
        (skipped ++ (drain batchSize (totalRows inputs + 1) S2).output) ∧
      List.Perm
        (skipped ++ (drain batchSize (totalRows inputs + 1) S2).output)
        S2.mstate.sorted_blocks.flatten := by
  obtain ⟨S1, nb, ha, hp1, hq1, ho1, hn1, hbl1, hnbinv, hdesc1, hlen1, _⟩ :=
    append_all_spec p hex hlim inputs (FullSorterState.init p) rfl rfl hne
  obtain ⟨S2, hprep, hp2, ho2, hq2, hcase2, hlen2, _⟩ :=
    prepare_for_read_spec S1 (by rw [hp1]; exact hex) hn1
      (by rw [hp1]; exact hlim)
  have hbl1' : S1.mstate.sorted_blocks = nb := by
    rw [hbl1]
    rfl
  have hblocks2 : ∀ c ∈ S2.mstate.sorted_blocks,
      c ≠ [] ∧ List.Sorted (rowLE (descOf p)) c := by
    rcases hcase2 with ⟨hb2, _, _⟩ | ⟨hb2, _, hubne⟩
    · rw [hb2, hbl1']
      exact hnbinv
    · rw [hb2, hbl1']
      intro c hc
      rcases List.mem_append.mp hc with hc | hc
      · exact hnbinv c hc
      · have hceq := List.mem_singleton.mp hc
        rw [hp1] at hceq
        subst hceq
        refine ⟨?_, sort_block_sorted (validDesc_descOf p) _⟩
        apply sort_block_ne_nil
        intro hmz
        have hl := materializeRows_length p S1.mstate.unsorted_block
        rw [hmz] at hl
        exact hubne (List.length_eq_zero.mp hl.symm)
  have hofs2 : S2.mstate.offset = p.offset := by
    rw [ho2, ho1]
    rfl
  have hbound2 : totalRows S2.mstate.sorted_blocks ≤ totalRows inputs := by
    have h0 : totalRows (FullSorterState.init p).mstate.sorted_blocks = 0 := rfl
    have h0' : (FullSorterState.init p).mstate.unsorted_block.length = 0 := rfl
    rw [h0, h0'] at hlen1
    omega
  by_cases h0 : S2.mstate.sorted_blocks = []
  · -- no rows were ever admitted
    have hgn := get_next_empty_blocks S2 batchSize [] false h0
    have hdro : (drain batchSize (totalRows inputs + 1) S2).output = [] := by
      unfold drain
      rw [hgn]
      rfl
    have hdre : (drain batchSize (totalRows inputs + 1) S2).eosReached
        = true := by
      unfold drain
      rw [hgn]
      rfl
    refine ⟨S1, S2, [], ha, hprep, hdre, ?_, ?_, ?_⟩
    · rw [h0]
      simp [totalRows]
    · rw [hdro]
      simp
    · rw [hdro, h0]
      simp
  · by_cases h1 : S2.mstate.sorted_blocks.length = 1
    · -- exactly one retained block: the fast path
      obtain ⟨b0, hsingle⟩ := List.length_eq_one.mp h1
      have hgn := get_next_single_block S2 batchSize [] false b0 hsingle
      rw [hp2, hp1] at hgn
      have hdro : (drain batchSize (totalRows inputs + 1) S2).output =
          b0.drop p.offset := by
        unfold drain
        rw [hgn]
        rfl
      have hdre : (drain batchSize (totalRows inputs + 1) S2).eosReached
          = true := by
        unfold drain
        rw [hgn]
        rfl
      obtain ⟨hbne, hbsort⟩ := hblocks2 b0
        (by rw [hsingle]; exact List.mem_cons_self _ _)
      refine ⟨S1, S2, b0.take p.offset, ha, hprep, hdre, ?_, ?_, ?_⟩
      · rw [List.length_take, hsingle]
        simp [totalRows]
      · rw [hdro, List.take_append_drop]
        exact hbsort
      · rw [hdro, List.take_append_drop, hsingle]
        simp
    · -- at least two retained blocks: the k-way merge
      have h2b : 2 ≤ S2.mstate.sorted_blocks.length := by
        have : S2.mstate.sorted_blocks.length ≠ 0 :=
          fun h => h0 (List.length_eq_zero.mp h)
        omega
      have hq2' : S2.mstate.priority_queue = S2.mstate.sorted_blocks := by
        rw [hq2, if_pos (by omega : S2.mstate.sorted_blocks.length > 1)]
      have hdesc2 : S2.sort_description = descOf p := by
        rcases hcase2 with ⟨hbq, hsd, _⟩ | ⟨_, hsd, _⟩
        · rcases hdesc1 with ⟨hnbnil, _, _⟩ | hsd1
          · exfalso
            apply h0
            rw [hbq, hbl1', hnbnil]
          · rw [hsd]
            exact hsd1
        · rw [hsd, hp1]
      have hqinv : queueInv (descOf p) S2.mstate.priority_queue := by
        rw [hq2']
        intro c hc
        exact hblocks2 c hc
      have hfuel : (qRows S2.mstate.priority_queue).length <
          totalRows inputs + 1 := by
        rw [hq2']
        have : (qRows S2.mstate.sorted_blocks).length =
            totalRows S2.mstate.sorted_blocks :=
          length_flatten_eq_totalRows _
        omega
      obtain ⟨popped, hperm, hsort, hout, heos, _⟩ :=
        drain_merge_spec (validDesc_descOf p) hbs (totalRows inputs + 1) S2
          hdesc2 h2b hqinv hfuel
      have hplen : popped.length = totalRows S2.mstate.sorted_blocks := by
        have hl := hperm.length_eq
        rw [hq2'] at hl
        have : (qRows S2.mstate.sorted_blocks).length =
            totalRows S2.mstate.sorted_blocks :=
          length_flatten_eq_totalRows _
        omega
      refine ⟨S1, S2, popped.take p.offset, ha, hprep, heos, ?_, ?_, ?_⟩
      · rw [List.length_take, hplen]
      · rw [hout, hofs2, List.take_append_drop]
        exact hsort
      · rw [hout, hofs2, List.take_append_drop]
        have := hperm.symm
        rw [hq2'] at this
        exact this

/-- C1: for every sequence of appended non-empty input batches and every
sort specification — with all expression evaluations succeeding, an
output quota of at least one row per call, and a limit that is either
unbounded (`-1`) or at least `1` (`limit = 0` would take the top of an
empty heap, undefined behaviour in the C++) — the operator pipeline
reaches end-of-stream and the concatenation of the rows emitted across
successive `get_next` calls is totally ordered under the resolved sort
description, and is exactly the rows of all retained sorted batches
minus the first `offset` of them in sort order: a `skipped` list of
exactly `min offset (total retained rows)` rows completes the output to
a sorted permutation of the retained rows, in both full and bounded
modes. -/
theorem get_next_outputs_sorted_and_complete (p : SorterParams)
    (inputs : List Block) (batchSize : Nat)
    (hex : exprsOk p)
    (hne : ∀ b ∈ inputs, b ≠ [])
    (hlim : p.limit = -1 ∨ 1 ≤ p.limit)
    (hbs : 1 ≤ batchSize) :
    ∃ S1 S2 skipped,
      append_all (FullSorterState.init p) inputs = some (S1, Status.ok) ∧
      S1.prepare_for_read = (S2, Status.ok) ∧
      (drain batchSize (totalRows inputs + 1) S2).eosReached = true ∧
      skipped.length = min p.offset (totalRows S2.mstate.sorted_blocks) ∧
      List.Sorted (rowLE (descOf p))
        (skipped ++ (drain batchSize (totalRows inputs + 1) S2).output) ∧
      List.Perm
        (skipped ++ (drain batchSize (totalRows inputs + 1) S2).output)
        S2.mstate.sorted_blocks.flatten :=
  pipeline_output_spec p inputs batchSize hex hne hlim hbs

theorem get_next_outputs_sorted_and_complete_witness :
    ∃ S1 S2 skipped,
      append_all (FullSorterState.init (simpleParams (-1) 1 1))
          [[[some 3], [some 1]], [[some 4]], [[some 2]]] =
        some (S1, Status.ok) ∧
      S1.prepare_for_read = (S2, Status.ok) ∧
      (drain 2 (totalRows [[[some 3], [some 1]], [[some 4]], [[some 2]]] + 1)
        S2).eosReached = true ∧
      skipped.length = min (simpleParams (-1) 1 1).offset
        (totalRows S2.mstate.sorted_blocks) ∧
      List.Sorted (rowLE (descOf (simpleParams (-1) 1 1)))
        (skipped ++ (drain 2
          (totalRows [[[some 3], [some 1]], [[some 4]], [[some 2]]] + 1)
          S2).output) ∧
      List.Perm
        (skipped ++ (drain 2
          (totalRows [[[some 3], [some 1]], [[some 4]], [[some 2]]] + 1)
          S2).output)
        S2.mstate.sorted_blocks.flatten :=
  get_next_outputs_sorted_and_complete (simpleParams (-1) 1 1)
    [[[some 3], [some 1]], [[some 4]], [[some 2]]] 2
    (by decide) (by decide) (by decide) (by decide)

/-- C2 counterexample: with `limit = 1`, `offset = 0` and flush threshold
1, the two input rows `5` and `1` arriving in separate batches are BOTH
emitted: the output is not exactly the 1 smallest row.  `get_next` never
truncates to the limit (spec §9 leaves final truncation to the caller),
and the `num_rows` use-after-move keeps the running total at 0, so
pruning never engages either. -/
theorem top_n_output_exceeds_limit :
    run_pipeline (simpleParams 1 0 1) [[[some 5]], [[some 1]]] 10 =
      some (Status.ok, [[some 1], [some 5]], true) ∧
    ([[some 1], [some 5]] : List Row) ≠ [[some 1]] := by
  constructor
  · rfl
  · decide

/-- C2 (amended): with a finite limit `L ≥ 1`, `offset = 0`, no tuple
materialization, and `N ≥ L` total input rows, the emitted rows form a
sorted sequence whose first `L` rows are `L` smallest rows of the input
under the sort description — the length-`L` prefix together with the
remaining emitted rows is a permutation of all input rows, and every
prefix row is below every remaining row; the operator may emit rows
beyond the first `L` (exact truncation to the limit is left to the
caller), regardless of how the rows are split into batches or of their
arrival order. -/
theorem top_n_prefix_is_smallest (p : SorterParams) (inputs : List Block)
    (batchSize L : Nat)
    (hex : exprsOk p)
    (hne : ∀ b ∈ inputs, b ≠ [])
    (hmat : p.vsort_exec_exprs.sort_tuple_slot_outcomes = none)
    (hlim : p.limit = (L : Int))
    (hL : 1 ≤ L)
    (hoff : p.offset = 0)
    (hbs : 1 ≤ batchSize)
    (hN : L ≤ totalRows inputs) :
    ∃ S1 S2,
      append_all (FullSorterState.init p) inputs = some (S1, Status.ok) ∧
      S1.prepare_for_read = (S2, Status.ok) ∧
      (drain batchSize (totalRows inputs + 1) S2).eosReached = true ∧
      List.Sorted (rowLE (descOf p))
        (drain batchSize (totalRows inputs + 1) S2).output ∧
      ((drain batchSize (totalRows inputs + 1) S2).output.take L).length
        = L ∧
      List.Perm
        ((drain batchSize (totalRows inputs + 1) S2).output.take L ++
          (drain batchSize (totalRows inputs + 1) S2).output.drop L)
        inputs.flatten ∧
      (∀ x ∈ (drain batchSize (totalRows inputs + 1) S2).output.take L,
        ∀ y ∈ (drain batchSize (totalRows inputs + 1) S2).output.drop L,
        rowLE (descOf p) x y) := by
  have hlim' : p.limit = -1 ∨ 1 ≤ p.limit := by
    right
    rw [hlim]
    exact_mod_cast hL
  obtain ⟨S1, nb, ha, hp1, hq1, ho1, hn1, hbl1, hnbinv, hdesc1, hlen1, hcons1⟩ :=
    append_all_spec p hex hlim' inputs (FullSorterState.init p) rfl rfl hne
  obtain ⟨S2, hprep, hp2, ho2, hq2, hcase2, hlen2, hcons2⟩ :=
    prepare_for_read_spec S1 (by rw [hp1]; exact hex) hn1
      (by rw [hp1]; exact hlim')
  have hflat : List.Perm S2.mstate.sorted_blocks.flatten inputs.flatten := by
    have h1 := hcons1 hmat
    have h2 := hcons2 (by rw [hp1]; exact hmat)
    have e1 : (FullSorterState.init p).mstate.sorted_blocks.flatten
        = ([] : List Row) := rfl
    have e2 : (FullSorterState.init p).mstate.unsorted_block
        = ([] : List Row) := rfl
    rw [e1, e2] at h1
    simp only [List.nil_append] at h1
    exact h2.trans h1
  obtain ⟨S1', S2', skipped, ha', hprep', heos', hsklen', hsort', hperm'⟩ :=
    pipeline_output_spec p inputs batchSize hex hne hlim' hbs
  rw [ha] at ha'
  rw [Option.some.injEq, Prod.mk.injEq] at ha'
  obtain ⟨hS1, -⟩ := ha'
  subst hS1
  rw [hprep] at hprep'
  rw [Prod.mk.injEq] at hprep'
  obtain ⟨hS2, -⟩ := hprep'
  subst hS2
  have hsk : skipped = [] := by
    rw [hoff] at hsklen'
    simp only [Nat.zero_min] at hsklen'
    exact List.length_eq_zero.mp hsklen'
  rw [hsk] at hsort' hperm'
  simp only [List.nil_append] at hsort' hperm'
  have houtperm : List.Perm
      (drain batchSize (totalRows inputs + 1) S2).output inputs.flatten :=
    hperm'.trans hflat
  have houtlen : (drain batchSize (totalRows inputs + 1) S2).output.length
      = totalRows inputs := by
    have h1 := houtperm.length_eq
    have h2 : inputs.flatten.length = totalRows inputs :=
      length_flatten_eq_totalRows _
    omega
  refine ⟨S1, S2, ha, hprep, heos', hsort', ?_, ?_, ?_⟩
  · rw [List.length_take]
    omega
  · rw [List.take_append_drop]
    exact houtperm
  · exact pairwise_take_drop hsort' L

theorem top_n_prefix_is_smallest_witness :
    ∃ S1 S2,
      append_all (FullSorterState.init (simpleParams 2 0 1))
          [[[some 5]], [[some 1]], [[some 3]]] = some (S1, Status.ok) ∧
      S1.prepare_for_read = (S2, Status.ok) ∧
      (drain 10 (totalRows [[[some 5]], [[some 1]], [[some 3]]] + 1)
        S2).eosReached = true ∧
      List.Sorted (rowLE (descOf (simpleParams 2 0 1)))
        (drain 10 (totalRows [[[some 5]], [[some 1]], [[some 3]]] + 1)
          S2).output ∧
      ((drain 10 (totalRows [[[some 5]], [[some 1]], [[some 3]]] + 1)
        S2).output.take 2).length = 2 ∧
      List.Perm
        ((drain 10 (totalRows [[[some 5]], [[some 1]], [[some 3]]] + 1)
          S2).output.take 2 ++
         (drain 10 (totalRows [[[some 5]], [[some 1]], [[some 3]]] + 1)
          S2).output.drop 2)
        [[[some 5]], [[some 1]], [[some 3]]].flatten ∧
      (∀ x ∈ (drain 10 (totalRows [[[some 5]], [[some 1]], [[some 3]]] + 1)
          S2).output.take 2,
        ∀ y ∈ (drain 10 (totalRows [[[some 5]], [[some 1]], [[some 3]]] + 1)
          S2).output.drop 2,
        rowLE (descOf (simpleParams 2 0 1)) x y) :=
  top_n_prefix_is_smallest (simpleParams 2 0 1)
    [[[some 5]], [[some 1]], [[some 3]]] 10 2
    (by decide) (by decide) (by decide) (by decide) (by decide) (by decide)
    (by decide) (by decide)

/-! ### The merge path over a single cursor -/

theorem mergeLoop_nil (desc : SortDescription) (batchSize : Nat) :
    ∀ (fuel off : Nat) (acc : List Row),
      mergeLoop desc batchSize fuel [] off acc = ([], off, acc) := by
  intro fuel off acc
  cases fuel with
  | zero => rfl
  | succ f => rfl

theorem mergeLoop_single (desc : SortDescription) (batchSize : Nat) :
    ∀ (c : Cursor) (fuel off : Nat) (acc : List Row), c ≠ [] →
      c.length < fuel →
      ∃ k, 1 ≤ k ∧ k ≤ c.length ∧
        mergeLoop desc batchSize fuel [c] off acc =
          ((if c.drop k = [] then [] else [c.drop k]), off - k,
            acc ++ ((c.take k).drop off)) ∧
        (c.drop k = [] ∨ (acc ++ ((c.take k).drop off)).length = batchSize) := by
  intro c
  induction c with
  | nil =>
    intro fuel off acc hne _
    exact absurd rfl hne
  | cons x t ih =>
    intro fuel off acc _ hfuel
    obtain ⟨f, rfl⟩ : ∃ f, fuel = f + 1 := by
      cases fuel with
      | zero => exact absurd hfuel (by omega)
      | succ f => exact ⟨f, rfl⟩
    have hifeq : (if t.isEmpty then ([] : List Cursor) else [t]) =
        if t = [] then [] else [t] := by
      cases t <;> simp
    by_cases hoff : off = 0
    · subst hoff
      have hunf : mergeLoop desc batchSize (f + 1) [x :: t] 0 acc =
          (if (acc ++ [x]).length = batchSize then
            ((if t.isEmpty then [] else [t]), 0, acc ++ [x])
          else
            mergeLoop desc batchSize f (if t.isEmpty then [] else [t]) 0
              (acc ++ [x])) := rfl
      by_cases hstop : (acc ++ [x]).length = batchSize
      · refine ⟨1, le_refl 1, by simp, ?_, Or.inr (by simpa using hstop)⟩
        rw [hunf, if_pos hstop, hifeq]
        simp
      · rw [hunf, if_neg hstop]
        by_cases ht : t = []
        · subst ht
          have h2 : (if ([] : List Row).isEmpty = true then ([] : List Cursor)
              else [[]]) = [] := rfl
          rw [h2, mergeLoop_nil]
          exact ⟨1, le_refl 1, by simp, by simp, Or.inl (by simp)⟩
        · rw [hifeq, if_neg ht]
          obtain ⟨k', hk1', hkle', heq', hstop'⟩ :=
            ih f 0 (acc ++ [x]) ht (by simp at hfuel ⊢; omega)
          refine ⟨k' + 1, by omega, by simp; omega, ?_, ?_⟩
          · rw [heq']
            rw [List.drop_succ_cons, List.take_succ_cons]
            simp
          · rw [List.drop_succ_cons, List.take_succ_cons]
            rcases hstop' with h | h
            · exact Or.inl h
            · refine Or.inr ?_
              rw [← h]
              simp
    · obtain ⟨n, rfl⟩ : ∃ n, off = n + 1 := by
        cases off with
        | zero => exact absurd rfl hoff
        | succ n => exact ⟨n, rfl⟩
      have hunf : mergeLoop desc batchSize (f + 1) [x :: t] (n + 1) acc =
          (if acc.length = batchSize then
            ((if t.isEmpty then [] else [t]), n, acc)
          else
            mergeLoop desc batchSize f (if t.isEmpty then [] else [t]) n
              acc) := rfl
      by_cases hstop : acc.length = batchSize
      · refine ⟨1, le_refl 1, by simp, ?_, Or.inr (by simpa using hstop)⟩
        rw [hunf, if_pos hstop, hifeq]
        simp
      · rw [hunf, if_neg hstop]
        by_cases ht : t = []
        · subst ht
          have h2 : (if ([] : List Row).isEmpty = true then ([] : List Cursor)
              else [[]]) = [] := rfl
          rw [h2, mergeLoop_nil]
          exact ⟨1, le_refl 1, by simp, by simp, Or.inl (by simp)⟩
        · rw [hifeq, if_neg ht]
          obtain ⟨k', hk1', hkle', heq', hstop'⟩ :=
            ih f n acc ht (by simp at hfuel ⊢; omega)
          refine ⟨k' + 1, by omega, by simp; omega, ?_, ?_⟩
          · rw [heq']
            rw [List.drop_succ_cons, List.take_succ_cons]
            have hoffeq : n - k' = n + 1 - (k' + 1) := by omega
            rw [List.drop_succ_cons, ← hoffeq]
          · rw [List.drop_succ_cons, List.take_succ_cons, List.drop_succ_cons]
            exact hstop'

theorem mergeReadDrain_empty (desc : SortDescription) (batchSize : Nat) :
    ∀ (f : Nat) (m : MergeSorterState), m.priority_queue = [] →
      (mergeReadDrain desc batchSize (f + 1) m).2.1 = [] ∧
      (mergeReadDrain desc batchSize (f + 1) m).2.2 = true := by
  intro f m hq
  unfold mergeReadDrain MergeSorterState.merge_sort_read
  rw [hq, mergeLoop_nil]
  exact ⟨rfl, rfl⟩

theorem mergeReadDrain_single (desc : SortDescription) (batchSize : Nat)
    (hbs : 1 ≤ batchSize) :
    ∀ (fuel : Nat) (m : MergeSorterState) (c : Cursor),
      m.priority_queue = [c] → c ≠ [] → c.length < fuel →
      (mergeReadDrain desc batchSize fuel m).2.1 = c.drop m.offset ∧
      (mergeReadDrain desc batchSize fuel m).2.2 = true := by
  intro fuel
  induction fuel with
  | zero =>
    intro m c _ _ h
    exact absurd h (by omega)
  | succ f ihf =>
    intro m c hq hcne hlen
    have hwc : c.length < qWeight [c] := by
      rw [qWeight_cons]
      have : qWeight ([] : List Cursor) = 0 := rfl
      omega
    obtain ⟨k, hk1, hkle, heq, hstop⟩ :=
      mergeLoop_single desc batchSize c (qWeight [c]) m.offset [] hcne hwc
    have htklen : ((c.take k).drop m.offset).length =
        (c.take k).length - m.offset := List.length_drop _ _
    have htk : (c.take k).length = k := by
      rw [List.length_take]
      omega
    unfold mergeReadDrain MergeSorterState.merge_sort_read
    rw [hq, heq]
    simp only [List.nil_append]
    by_cases hem : ((c.take k).drop m.offset).length = 0
    · -- the call emitted nothing: eos, and the cursor was fully consumed
      rw [if_pos hem]
      have hkfull : c.drop k = [] := by
        rcases hstop with h | h
        · exact h
        · rw [List.nil_append] at h
          omega
      have hkc : k = c.length := by
        have := List.drop_eq_nil_iff.mp hkfull
        omega
      have htkc : c.take k = c := by
        rw [hkc]
        exact List.take_length c
      have : c.drop m.offset = [] := by
        rw [← htkc]
        exact List.length_eq_zero.mp hem
      rw [this]
      exact ⟨rfl, rfl⟩
    · rw [if_neg hem]
      dsimp only
      have hout : (c.take k).drop m.offset ++ (c.drop k).drop (m.offset - k)
          = c.drop m.offset := by
        conv_rhs => rw [← List.take_append_drop k c]
        rw [List.drop_append_eq_append_drop, htk]
      by_cases hck : c.drop k = []
      · rw [if_pos hck]
        obtain ⟨f', rfl⟩ : ∃ f', f = f' + 1 := by
          cases f with
          | zero => exact absurd hlen (by omega)
          | succ f' => exact ⟨f', rfl⟩
        have hrest := mergeReadDrain_empty desc batchSize f'
          { unsorted_block := m.unsorted_block
            sorted_blocks := m.sorted_blocks
            priority_queue := []
            num_rows := m.num_rows
            offset := m.offset - k } rfl
        refine ⟨?_, hrest.2⟩
        rw [hrest.1, List.append_nil, ← hout, hck]
        simp
      · rw [if_neg hck]
        have hrest := ihf
          { unsorted_block := m.unsorted_block
            sorted_blocks := m.sorted_blocks
            priority_queue := [c.drop k]
            num_rows := m.num_rows
            offset := m.offset - k } (c.drop k) rfl hck
          (by rw [List.length_drop]; omega)
        refine ⟨?_, hrest.2⟩
        rw [hrest.1]
        exact hout

/-- C6: when exactly one sorted batch is retained, `get_next` emits that
batch directly with no merge — dropping the first `offset` rows as a
prefix and signaling end-of-stream on that same call — and the emitted
output is row-for-row identical to what the general k-way merge path
(`merge_sort_read` driven to end-of-stream) would produce from a single
cursor over that batch with the same offset. -/
theorem single_block_fast_path_equiv (S : FullSorterState) (batchSize : Nat)
    (blockIn : List Row) (memReuse : Bool) (b : Block)
    (hb : S.mstate.sorted_blocks = [b]) (hbne : b ≠ [])
    (hbs : 1 ≤ batchSize) :
    (S.get_next batchSize blockIn memReuse).emitted =
      b.drop S.params.offset ∧
    (S.get_next batchSize blockIn memReuse).eos = true ∧
    (S.get_next batchSize blockIn memReuse).status = Status.ok ∧
    (mergeReadDrain S.sort_description batchSize (b.length + 1)
        { unsorted_block := [], sorted_blocks := [b], priority_queue := [b]
          num_rows := 0, offset := S.params.offset }).2.1 =
      b.drop S.params.offset ∧
    (mergeReadDrain S.sort_description batchSize (b.length + 1)
        { unsorted_block := [], sorted_blocks := [b], priority_queue := [b]
          num_rows := 0, offset := S.params.offset }).2.2 = true ∧
    (S.get_next batchSize blockIn memReuse).emitted =
      (mergeReadDrain S.sort_description batchSize (b.length + 1)
        { unsorted_block := [], sorted_blocks := [b], priority_queue := [b]
          num_rows := 0, offset := S.params.offset }).2.1 := by
  have hgn := get_next_single_block S batchSize blockIn memReuse b hb
  have hmd := mergeReadDrain_single S.sort_description batchSize hbs
    (b.length + 1)
    { unsorted_block := [], sorted_blocks := [b], priority_queue := [b]
      num_rows := 0, offset := S.params.offset } b rfl hbne (by omega)
  exact ⟨by rw [hgn], by rw [hgn], by rw [hgn], hmd.1, hmd.2,
    by rw [hgn, hmd.1]⟩

theorem single_block_fast_path_equiv_witness :
    (oneBlockState.get_next 10 [] false).emitted =
      [[some 1]].drop oneBlockState.params.offset ∧
    (oneBlockState.get_next 10 [] false).eos = true ∧
    (oneBlockState.get_next 10 [] false).status = Status.ok ∧
    (mergeReadDrain oneBlockState.sort_description 10 ([[some 1]].length + 1)
        { unsorted_block := [], sorted_blocks := [[[some 1]]]
          priority_queue := [[[some 1]]]
          num_rows := 0, offset := oneBlockState.params.offset }).2.1 =
      [[some 1]].drop oneBlockState.params.offset ∧
    (mergeReadDrain oneBlockState.sort_description 10 ([[some 1]].length + 1)
        { unsorted_block := [], sorted_blocks := [[[some 1]]]
          priority_queue := [[[some 1]]]
          num_rows := 0, offset := oneBlockState.params.offset }).2.2 = true ∧
    (oneBlockState.get_next 10 [] false).emitted =
      (mergeReadDrain oneBlockState.sort_description 10 ([[some 1]].length + 1)
        { unsorted_block := [], sorted_blocks := [[[some 1]]]
          priority_queue := [[[some 1]]]
          num_rows := 0, offset := oneBlockState.params.offset }).2.1 :=
  single_block_fast_path_equiv oneBlockState 10 [] false [[some 1]]
    (by decide) (by decide) (by decide)

/-! ### Claim theorems: framing, assertions, admission -/

/-- C10: if no rows were ever admitted — the retained sorted-blocks list
is empty when `get_next` is called — the call immediately reports
end-of-stream with a success status, leaves the caller's output block
untouched, and leaves the whole operator state (in particular the merge
tree and its priority queue) unchanged. -/
theorem get_next_no_retained_blocks (S : FullSorterState) (batchSize : Nat)
    (blockIn : List Row) (memReuse : Bool)
    (h : S.mstate.sorted_blocks = []) :
    S.get_next batchSize blockIn memReuse =
      { state := S, blockOut := blockIn, emitted := [], eos := true
        status := Status.ok } := by
  unfold FullSorterState.get_next
  rw [h]
  simp

theorem get_next_no_retained_blocks_witness :
    (FullSorterState.init (simpleParams (-1) 0 10)).get_next 5 [] false =
      { state := FullSorterState.init (simpleParams (-1) 0 10), blockOut := []
        emitted := [], eos := true, status := Status.ok } :=
  get_next_no_retained_blocks _ 5 [] false rfl

/-- C9: `append_block` asserts `block->rows() > 0` before merging the
batch into the accumulator: a zero-row batch fires the fatal `DCHECK`
(modelled as `none`) rather than returning a recoverable status, and
under the precondition that the appended batch is non-empty the assertion
never fires. -/
theorem append_block_empty_batch_asserts :
    (∀ S : FullSorterState, S.append_block [] = none) ∧
    (∀ (S : FullSorterState) (b : Block), b ≠ [] →
      (S.append_block b).isSome = true) := by
  constructor
  · intro S
    unfold FullSorterState.append_block
    simp
  · intro S b hb
    unfold FullSorterState.append_block
    rw [if_neg (fun hl => hb (List.length_eq_zero.mp hl))]
    dsimp only
    split <;> simp

theorem append_block_empty_batch_asserts_witness :
    (FullSorterState.init (simpleParams (-1) 0 10)).append_block [] = none ∧
    ((FullSorterState.init (simpleParams (-1) 0 10)).append_block
      [[some 1]]).isSome = true :=
  ⟨append_block_empty_batch_asserts.1 _,
   append_block_empty_batch_asserts.2 _ _ (by decide)⟩

/-- C8: if any ordering- or output-expression evaluation inside
`partial_sort` fails during a sort-and-admit step, the step returns the
failed status to its caller and commits nothing: the retained
sorted-blocks list, the Top-N heap, the running row total — indeed every
component except the already-drained accumulator — are unchanged. -/
theorem do_sort_failure_commits_nothing (S : FullSorterState)
    (h : ¬ exprsOk S.params) :
    S.do_sort =
      ({ S with mstate := { S.mstate with unsorted_block := [] } },
        Status.error) := by
  unfold FullSorterState.do_sort
  dsimp only
  rw [partial_sort_of_not_exprsOk h]

theorem do_sort_failure_commits_nothing_witness :
    failingState.do_sort =
      ({ failingState with
          mstate := { failingState.mstate with unsorted_block := [] } },
        Status.error) :=
  do_sort_failure_commits_nothing failingState (by decide)

/-- C3 (code-bug evidence): one bounded-mode sort-and-admit step with
`limit = 2` on a two-row batch appends the batch to the retained list and
pushes a cursor for it onto the Top-N heap, but leaves the running total
`num_rows` at `0` instead of increasing it by the batch's row count:
`_state->num_rows += block.rows()` at line 160 runs after
`std::move(block)` (line 159) has emptied the block. -/
theorem num_rows_not_increased_by_admission :
    ((FullSorterState.init (simpleParams 2 0 1)).append_block
        [[some 1], [some 2]]).map
      (fun r => (r.1.mstate.num_rows, r.1.mstate.sorted_blocks,
                 r.1.block_priority_queue, r.2)) =
      some (0, [[[some 1], [some 2]]], [[[some 1], [some 2]]], Status.ok) := by
  rfl

/-- C5: in bounded mode, once the running total of retained rows has
reached `limit`, a sort-and-admit step discards the candidate sorted
batch — storing and merging nothing — exactly when the candidate is
totally greater than the heap top (every row strictly worse than the
heap's current worst-stored row); otherwise it appends the candidate to
the retained list and pushes it onto the heap.  In both cases every
previously retained batch stays retained and the step succeeds. -/
theorem bounded_admission_after_limit (S : FullSorterState) (top : Block)
    (hex : exprsOk S.params)
    (hlim : S.params.limit ≠ -1)
    (hfull : ¬ ((S.mstate.num_rows : Int) < S.params.limit))
    (htop : heapTop (descOf S.params) S.block_priority_queue = some top) :
    S.do_sort.2 = Status.ok ∧
    (totally_greater (descOf S.params)
        (sort_block (materializeRows S.params S.mstate.unsorted_block)
          (descOf S.params)) top = true →
      S.do_sort.1.mstate.sorted_blocks = S.mstate.sorted_blocks ∧
      S.do_sort.1.block_priority_queue = S.block_priority_queue) ∧
    (totally_greater (descOf S.params)
        (sort_block (materializeRows S.params S.mstate.unsorted_block)
          (descOf S.params)) top = false →
      S.do_sort.1.mstate.sorted_blocks = S.mstate.sorted_blocks ++
        [sort_block (materializeRows S.params S.mstate.unsorted_block)
          (descOf S.params)] ∧
      S.do_sort.1.block_priority_queue = S.block_priority_queue ++
        [sort_block (materializeRows S.params S.mstate.unsorted_block)
          (descOf S.params)]) := by
  have hps := partial_sort_of_exprsOk hex S.mstate.unsorted_block
  unfold FullSorterState.do_sort
  dsimp only
  rw [hps]
  dsimp only
  rw [if_pos hlim, if_neg hfull, htop]
  dsimp only
  cases htg : totally_greater (descOf S.params)
      (sort_block (materializeRows S.params S.mstate.unsorted_block)
        (descOf S.params)) top
  · simp
  · simp

theorem bounded_admission_after_limit_witness :
    atLimitState.do_sort.2 = Status.ok ∧
    (totally_greater (descOf atLimitState.params)
        (sort_block (materializeRows atLimitState.params
          atLimitState.mstate.unsorted_block) (descOf atLimitState.params))
        [[some 5]] = true →
      atLimitState.do_sort.1.mstate.sorted_blocks =
        atLimitState.mstate.sorted_blocks ∧
      atLimitState.do_sort.1.block_priority_queue =
        atLimitState.block_priority_queue) ∧
    (totally_greater (descOf atLimitState.params)
        (sort_block (materializeRows atLimitState.params
          atLimitState.mstate.unsorted_block) (descOf atLimitState.params))
        [[some 5]] = false →
      atLimitState.do_sort.1.mstate.sorted_blocks =
        atLimitState.mstate.sorted_blocks ++
          [sort_block (materializeRows atLimitState.params
            atLimitState.mstate.unsorted_block) (descOf atLimitState.params)] ∧
      atLimitState.do_sort.1.block_priority_queue =
        atLimitState.block_priority_queue ++
          [sort_block (materializeRows atLimitState.params
            atLimitState.mstate.unsorted_block) (descOf atLimitState.params)]) :=
  bounded_admission_after_limit atLimitState [[some 5]] (by decide) (by decide)
    (by decide) (by decide)

/-- C7 counterexample: with exactly one retained single-row block and
`offset = 1`, a `get_next` call on a memory-reuse output block holding a
stale row emits zero rows, signals end-of-stream and returns success —
but the fast path swaps unconditionally, so the caller's block is *not*
left unmodified (its row `[9]` is replaced by an empty block). -/
theorem get_next_zero_rows_can_modify_block :
    (oneBlockState.get_next 10 [[some 9]] true).emitted = [] ∧
    (oneBlockState.get_next 10 [[some 9]] true).eos = true ∧
    (oneBlockState.get_next 10 [[some 9]] true).status = Status.ok ∧
    (oneBlockState.get_next 10 [[some 9]] true).blockOut ≠ [[some 9]] := by
  refine ⟨rfl, rfl, rfl, ?_⟩
  decide

/-- C7 (amended): outside the single-batch fast path — that is, whenever
the retained-block count is not exactly one, which covers every call that
consults the priority queue as well as the empty case — a `get_next` call
that emits zero rows signals end-of-stream, returns a success status and
leaves the caller's output block unmodified, including in memory-reuse
mode.  (On the single-batch fast path the block is swapped even when zero
rows remain after offset-skipping; see the counterexample.) -/
theorem get_next_zero_rows_leaves_block (S : FullSorterState)
    (batchSize : Nat) (blockIn : List Row) (memReuse : Bool)
    (hnot1 : S.mstate.sorted_blocks.length ≠ 1) :
    (S.get_next batchSize blockIn memReuse).emitted = [] →
      (S.get_next batchSize blockIn memReuse).blockOut = blockIn ∧
      (S.get_next batchSize blockIn memReuse).eos = true ∧
      (S.get_next batchSize blockIn memReuse).status = Status.ok := by
  unfold FullSorterState.get_next MergeSorterState.merge_sort_read
  by_cases hemp : S.mstate.sorted_blocks.isEmpty = true
  · rw [if_pos hemp]
    intro _
    exact ⟨rfl, rfl, rfl⟩
  · rw [if_neg hemp, if_neg hnot1]
    dsimp only
    split
    · intro _
      exact ⟨rfl, rfl, rfl⟩
    · rename_i hlen
      intro hemt
      dsimp only at hemt
      exact absurd (by rw [hemt] : (mergeLoop S.sort_description batchSize
        (qWeight S.mstate.priority_queue) S.mstate.priority_queue
        S.mstate.offset []).2.2.length = ([] : List Row).length) hlen

theorem get_next_zero_rows_leaves_block_witness :
    (twoBlockState.get_next 4 [[some 7]] true).blockOut = [[some 7]] ∧
    (twoBlockState.get_next 4 [[some 7]] true).eos = true ∧
    (twoBlockState.get_next 4 [[some 7]] true).status = Status.ok :=
  get_next_zero_rows_leaves_block twoBlockState 4 [[some 7]] true
    (by decide) (by decide)

/-- C4: with all expression evaluations succeeding, `partial_sort`
resolves the sort description and sorts the (materialized) batch in
place: the result is a permutation of the batch's rows (no truncation);
its leading `offset + limit` rows are the smallest rows, in sorted order
— all a finite-limit sort promises; and when `limit = -1` the whole
result is sorted, a full untruncated sort, for every offset value.
(`sort_block` is outside this slice and modelled from the spec.) -/
theorem partial_sort_sorts (p : SorterParams) (b : Block) (hex : exprsOk p) :
    ∃ b', partial_sort p b = some (b', descOf p) ∧
      List.Perm b' (materializeRows p b) ∧
      List.Sorted (rowLE (descOf p)) (b'.take (p.offset + p.limit.toNat)) ∧
      (∀ x ∈ b'.take (p.offset + p.limit.toNat),
        ∀ y ∈ b'.drop (p.offset + p.limit.toNat), rowLE (descOf p) x y) ∧
      (p.limit = -1 → List.Sorted (rowLE (descOf p)) b') := by
  refine ⟨sort_block (materializeRows p b) (descOf p),
    partial_sort_of_exprsOk hex b, sort_block_perm _ _, ?_, ?_, ?_⟩
  · exact pairwise_take (sort_block_sorted (validDesc_descOf p) _) _
  · exact pairwise_take_drop (sort_block_sorted (validDesc_descOf p) _) _
  · intro _
    exact sort_block_sorted (validDesc_descOf p) _

theorem partial_sort_sorts_witness :
    ∃ b', partial_sort (simpleParams 2 1 10) [[some 3], [some 1]] =
        some (b', descOf (simpleParams 2 1 10)) ∧
      List.Perm b' (materializeRows (simpleParams 2 1 10) [[some 3], [some 1]]) ∧
      List.Sorted (rowLE (descOf (simpleParams 2 1 10)))
        (b'.take ((simpleParams 2 1 10).offset + (simpleParams 2 1 10).limit.toNat)) ∧
      (∀ x ∈ b'.take ((simpleParams 2 1 10).offset + (simpleParams 2 1 10).limit.toNat),
        ∀ y ∈ b'.drop ((simpleParams 2 1 10).offset + (simpleParams 2 1 10).limit.toNat),
        rowLE (descOf (simpleParams 2 1 10)) x y) ∧
      ((simpleParams 2 1 10).limit = -1 →
        List.Sorted (rowLE (descOf (simpleParams 2 1 10))) b') :=
  partial_sort_sorts (simpleParams 2 1 10) [[some 3], [some 1]] (by decide)

end DorisSort
